import Mathlib

/-!
Verification development for the `sertit-utils` repository (module `sertit/files.py`).

Python strings are modelled as `List Char`, filesystem paths as lists of path
components, and the filesystem as finite association data (a list of directory
paths plus an association list from file paths to file data).  Archive files
(`zip`, `tar`) carry their member list as structured data together with flags
saying whether the underlying low-level reader succeeds, so that the error
behaviour of `zipfile`/`tarfile` can be represented.  All definitions are
computable and all predicates decidable.
-/

set_option autoImplicit false

/-- A Python string, modelled as its list of characters. -/
abbrev Str := List Char

/-- A filesystem path, as the list of its components relative to the root. -/
abbrev FsPath := List Str

/-- Python `str.split(sep)` for a one-character separator: splits at every
occurrence of `sep`; the result is never empty and keeps empty pieces. -/
def splitOnC (sep : Char) : Str → List Str
  | [] => [[]]
  | c :: rest =>
    let r := splitOnC sep rest
    if c == sep then [] :: r
    else
      match r with
      | h :: t => (c :: h) :: t
      | [] => [[c]]

/-- Python `name.split("/")`, used on archive member names. -/
def splitSlash (s : Str) : List Str := splitOnC '/' s

/-- Joins components with `/`, the inverse of `splitSlash`. -/
def joinSlash : List Str → Str
  | [] => []
  | [p] => p
  | p :: rest => p ++ '/' :: joinSlash rest

/-- First component of a member name: Python `name.split("/")[0]`. -/
def topComp (s : Str) : Str := (splitSlash s).headD []

/-- CPython `PurePath.suffix`: the extension of the final component, i.e. the
part from the last dot on, provided that dot is neither the first nor the last
character of the name; otherwise the empty string. -/
def pySuffix (n : Str) : Str :=
  let r := n.reverse
  let tl := r.takeWhile (fun c => !(c == '.'))
  if tl.length == r.length then []
  else
    let rest := r.drop (tl.length + 1)
    if rest.isEmpty || tl.isEmpty then []
    else '.' :: tl.reverse

/-- CPython `PurePath.suffixes`: `[]` when the name ends with a dot, else the
name is stripped of leading dots and every dot-separated piece after the first
becomes one suffix (with its dot restored). -/
def pySuffixes (n : Str) : List Str :=
  if n.getLast? == some '.' then []
  else
    let m := n.dropWhile (fun c => c == '.')
    ((splitOnC '.' m).tail).map (fun s => '.' :: s)

/-- Final component of a path (Python `PurePath.name`); empty for the root. -/
def fileName (p : FsPath) : Str := p.getLast?.getD []

/-- Modelled from the spec: `sertit.path.get_filename` (the `sertit/path.py`
module is not under `src/`).  The spec states the tar extraction target is
"named from the archive's base filename (without extension)" and that
extracting `bundle.tar.gz` uses the top-level name `bundle`, so the `.tar.gz`
double extension is stripped as a whole and otherwise the (single) suffix is
stripped. -/
def get_filename (n : Str) : Str :=
  if (".tar.gz".toList).isSuffixOf n then n.take (n.length - 7)
  else n.take (n.length - (pySuffix n).length)

/-- Deduplication keeping first occurrences.  CPython builds `extr_names`
as `list({...})`, whose iteration order is implementation defined; the model
fixes the canonical first-occurrence order. -/
def dedupAux (seen : List Str) : List Str → List Str
  | [] => []
  | x :: xs => if seen.contains x then dedupAux seen xs else x :: dedupAux (x :: seen) xs

/-- First-occurrence deduplication of a list of strings. -/
def dedupFirst (l : List Str) : List Str := dedupAux [] l

/-- Python `needle in haystack` on strings: contiguous substring test,
checked at every starting position. -/
def substrB : Str → Str → Bool
  | n, [] => n.isEmpty
  | n, c :: t => n.isPrefixOf (c :: t) || substrB n t

/-- Log levels emitted by the library (only the level matters to the claims). -/
inductive Log where
  | debug
  | info
deriving DecidableEq

/-- Python exceptions that the modelled code can raise.
`typeErrorUnsupported` is the `TypeError` naming the supported archive kinds,
`typeErrorCorrupt` is the `TypeError("Impossible to extract ...")` wrapping a
`tarfile.ReadError`, `typeErrorMisc` covers other `TypeError`s. -/
inductive PyErr where
  | typeErrorUnsupported
  | typeErrorCorrupt
  | typeErrorMisc
  | badZipFile
  | readError
  | fileNotFoundError
  | osError
  | ioError
deriving DecidableEq

/-- Content of an archive on disk.  A zip carries a `good` flag: `false`
means `zipfile.ZipFile` raises `BadZipFile` when opening it.  A tar carries
`openOk` (`tarfile.open` raises `ReadError` when `false`) and `bodyOk`
(`extractall` raises `ReadError` mid-extraction when `false`).  Members are
file entries, name (with `/` separators) and byte content. -/
inductive AData where
  | zipData (good : Bool) (members : List (Str × List Nat))
  | tarData (openOk : Bool) (bodyOk : Bool) (members : List (Str × List Nat))
deriving DecidableEq

/-- Data stored at a file path: raw bytes, or an archive with structure. -/
inductive FileData where
  | bytes (bs : List Nat)
  | archive (a : AData)
deriving DecidableEq

/-- A filesystem: the set of directory paths and an association from file
paths to their data.  Lookup takes the first binding. -/
structure FS where
  dirs : List FsPath
  files : List (FsPath × FileData)
deriving DecidableEq

/-- Directory test. -/
def isDir (fs : FS) (p : FsPath) : Bool := fs.dirs.contains p

/-- File lookup (first binding wins). -/
def lookupFile (fs : FS) (p : FsPath) : Option FileData :=
  (fs.files.find? (fun q => q.1 == p)).map (fun q => q.2)

/-- File test. -/
def isFile (fs : FS) (p : FsPath) : Bool := (lookupFile fs p).isSome

/-- Writes (or overwrites) the file at `p`. -/
def setFile (fs : FS) (p : FsPath) (c : FileData) : FS :=
  { fs with files := (p, c) :: fs.files.filter (fun q => !(q.1 == p)) }

/-- Deletes the file binding at `p`. -/
def delFile (fs : FS) (p : FsPath) : FS :=
  { fs with files := fs.files.filter (fun q => !(q.1 == p)) }

/-- Adds a single directory path. -/
def addDir (fs : FS) (p : FsPath) : FS :=
  if isDir fs p then fs else { fs with dirs := p :: fs.dirs }

/-- All nonempty prefixes of a path, shortest first (the root always exists
and is not listed). -/
def pathPrefixes (p : FsPath) : List FsPath :=
  (List.range p.length).map (fun i => p.take (i + 1))

/-- Python `os.makedirs(p, exist_ok=True)`: creates every missing directory
on the way; raises (`FileExistsError`/`NotADirectoryError`, both `OSError`)
when some prefix of `p` is an existing file. -/
def mkdirs (fs : FS) (p : FsPath) : Except PyErr FS :=
  if (pathPrefixes p).any (fun q => isFile fs q) then .error .osError
  else .ok ((pathPrefixes p).foldl addDir fs)

/-- Python `shutil.rmtree p`: removes the directory `p` and everything below
it (files and directories). -/
def removeTree (fs : FS) (p : FsPath) : FS :=
  { dirs := fs.dirs.filter (fun q => !(p.isPrefixOf q)),
    files := fs.files.filter (fun q => !(p.isPrefixOf q.1)) }

/-- Modelled from the spec: `sertit.misc.in_docker` (the `sertit/misc.py`
module is not under `src/`) probes the execution environment.  The spec states
the scratch-directory indirection taken when it is true exists purely for
performance in constrained environments and that in unconstrained environments
extraction writes directly to the output, so the model fixes the unconstrained
environment. -/
def in_docker : Bool := false

/-- Return shape of `extract_file`: the single path when exactly one target
directory resulted, else the list (`files.py` lines 262-266). -/
inductive ExtrRes where
  | single (p : FsPath)
  | multiple (ps : List FsPath)
deriving DecidableEq

/-- The archive handle obtained by the suffix dispatch of `extract_file`. -/
inductive Arch where
  | zipA (members : List (Str × List Nat))
  | tarA (bodyOk : Bool) (members : List (Str × List Nat))
deriving DecidableEq

/-- Zip suffix test of `extract_file`: `file_path.suffix == ".zip"`. -/
def isZipSuffix (n : Str) : Bool := pySuffix n == ".zip".toList

/-- Tar suffix test of `extract_file`:
`file_path.suffix == ".tar" or file_path.suffixes == [".tar", ".gz"]`. -/
def isTarSuffix (n : Str) : Bool :=
  pySuffix n == ".tar".toList || pySuffixes n == [".tar".toList, ".gz".toList]

/-- The suffixes `extract_file` accepts (source condition, lines 191-202). -/
def supportedSuffix (n : Str) : Bool := isZipSuffix n || isTarSuffix n

/-- Modelled from the spec: the spec phrases support as "the suffix is
one of `.zip`, `.tar`, `.tar.gz`", which for a path name reads as the name
ending in one of those extensions. -/
def specSupportedSuffix (n : Str) : Bool :=
  (".zip".toList).isSuffixOf n || (".tar".toList).isSuffixOf n
    || (".tar.gz".toList).isSuffixOf n

/-- Archive opening phase of `extract_file` (lines 190-205): dispatch on the
suffix, open the archive and compute the extraction target names.  For zip,
targets are the distinct first components of the member names; for tar the
single synthetic name `get_filename file_path`.  An unsupported suffix raises
the `TypeError` naming the accepted kinds.  `zipfile.ZipFile` raises
`FileNotFoundError` on a missing file and `BadZipFile` on content it cannot
parse; `tarfile.open` raises `FileNotFoundError` or `ReadError`. -/
def openArchive (fs : FS) (file_path : FsPath) : Except PyErr (Arch × List Str) :=
  let fname := fileName file_path
  if isZipSuffix fname then
    match lookupFile fs file_path with
    | none => .error .fileNotFoundError
    | some (.bytes _) => .error .badZipFile
    | some (.archive (.tarData _ _ _)) => .error .badZipFile
    | some (.archive (.zipData good ms)) =>
      if good then .ok (.zipA ms, dedupFirst (ms.map (fun m => topComp m.1)))
      else .error .badZipFile
  else if isTarSuffix fname then
    match lookupFile fs file_path with
    | none => .error .fileNotFoundError
    | some (.bytes _) => .error .readError
    | some (.archive (.zipData _ _)) => .error .readError
    | some (.archive (.tarData openOk bodyOk ms)) =>
      if openOk then .ok (.tarA bodyOk ms, [get_filename fname])
      else .error .readError
  else .error .typeErrorUnsupported

/-- Extraction of a single archive member to `target`: the archive readers
create the missing parent directories (raising `OSError` if a parent is an
existing file) and then open `target` for writing, which raises
`IsADirectoryError` (an `OSError`) when `target` is an existing directory. -/
def extractOne (fs : FS) (target : FsPath) (c : List Nat) : Except PyErr FS :=
  match mkdirs fs target.dropLast with
  | .error e => .error e
  | .ok fs1 =>
    if isDir fs1 target then .error .osError
    else .ok (setFile fs1 target (.bytes c))

/-- Sequential extraction of members, each at `base ++ splitSlash name`. -/
def writeMembers (base : FsPath) : FS → List (Str × List Nat) → Except PyErr FS
  | fs, [] => .ok fs
  | fs, m :: rest =>
    match extractOne fs (base ++ splitSlash m.1) m.2 with
    | .error e => .error e
    | .ok fs1 => writeMembers base fs1 rest

/-- Python `sertit.files.remove` (lines 666-693): a non-existing path is only
debug-logged; a directory is removed with `shutil.rmtree` and a file with
`unlink`, each swallowing `OSError` with a debug log.  `osFail` injects the
failure of the underlying `rmtree`/`unlink` call. -/
def remove (fs : FS) (p : FsPath) (osFail : Bool) : FS × List Log :=
  if !(isDir fs p || isFile fs p) then (fs, [.debug])
  else if isDir fs p then
    if osFail then (fs, [.debug]) else (removeTree fs p, [])
  else
    if osFail then (fs, [.debug]) else (delFile fs p, [])

/-- The per-target loop of `extract_file` (lines 208-257), in the
unconstrained environment (`in_docker = False`, see `in_docker`).  For each
target directory: if it exists, with `overwrite` it is debug-logged and
removed, without it is only debug-logged — in both cases the loop moves on to
the next target.  Otherwise the extraction branch runs: for zip, the members
whose names contain the target name as a substring are extracted under
`output`; for tar, all members are extracted under the target directory.
`os.makedirs` runs first; only a `tarfile.ReadError` from `extractall` is
wrapped into the `TypeError("Impossible to extract ...")`. -/
def extractLoop (arch : Arch) (output : FsPath) (overwrite : Bool) :
    FS → List Log → List FsPath → Except PyErr (FS × List Log)
  | fs, logs, [] => .ok (fs, logs)
  | fs, logs, extr_dir :: rest =>
    let extr_name := fileName extr_dir
    if isDir fs extr_dir then
      if overwrite then
        let r := remove fs extr_dir false
        extractLoop arch output overwrite r.1 (logs ++ [.debug] ++ r.2) rest
      else
        extractLoop arch output overwrite fs (logs ++ [.debug]) rest
    else
      match arch with
      | .zipA ms =>
        match mkdirs fs extr_dir with
        | .error e => .error e
        | .ok fs1 =>
          match writeMembers output fs1 (ms.filter (fun m => substrB extr_name m.1)) with
          | .error e => .error e
          | .ok fs2 => extractLoop arch output overwrite fs2 (logs ++ [.info]) rest
      | .tarA bodyOk ms =>
        match mkdirs fs extr_dir with
        | .error e => .error e
        | .ok fs1 =>
          if bodyOk then
            match writeMembers extr_dir fs1 ms with
            | .error e => .error e
            | .ok fs2 => extractLoop arch output overwrite fs2 (logs ++ [.info]) rest
          else .error .typeErrorCorrupt

/-- Python `sertit.files.extract_file` (lines 158-266): a directory input is
returned unchanged; otherwise the archive is opened by suffix, each target
name becomes the directory `output/name`, the per-target loop runs, and a
single resulting directory is returned alone, several as a list. -/
def extract_file (fs : FS) (file_path : FsPath) (output : FsPath)
    (overwrite : Bool) : Except PyErr (FS × List Log × ExtrRes) :=
  if isDir fs file_path then .ok (fs, [], .single file_path)
  else
    match openArchive fs file_path with
    | .error e => .error e
    | .ok (arch, extr_names) =>
      let extr_dirs := extr_names.map (fun e => output ++ [e])
      match extractLoop arch output overwrite fs [] extr_dirs with
      | .error e => .error e
      | .ok (fs1, logs) =>
        match extr_dirs with
        | [d] => .ok (fs1, logs, .single d)
        | ds => .ok (fs1, logs, .multiple ds)

/-- Effect of `shutil.copytree src dst`: every directory and file below `src`
is reproduced below `dst` (which is created, along with its parents). -/
def copytreeFS (fs : FS) (src dst : FsPath) : FS :=
  let movedDirs := (fs.dirs.filter (fun q => src.isPrefixOf q)).map
    (fun q => dst ++ q.drop src.length)
  let movedFiles := (fs.files.filter (fun q => src.isPrefixOf q.1)).map
    (fun q => (dst ++ q.1.drop src.length, q.2))
  { dirs := movedDirs ++ (pathPrefixes dst) ++ fs.dirs,
    files := movedFiles ++ fs.files }

/-- Outcome of the underlying `shutil` call inside `copy`; real failures are
environmental (permissions, races), so they are injected as a parameter. -/
inductive CopyFail where
  | noFail
  | shutilErr
  | ioErr
deriving DecidableEq

/-- Python `sertit.files.copy` (lines 732-773), for local paths
(`is_cloud_path` is false): a directory source goes through `copytree`, a file
source through `copy2` (into `dst` when `dst` is a directory, at `dst`
otherwise); a `shutil.Error` is debug-logged and swallowed, returning the
source path; any other `IOError` is re-raised as `IOError`; a source that is
neither a directory nor a file returns `None` without error. -/
def copy (fs : FS) (src dst : FsPath) (fail : CopyFail) :
    Except PyErr (FS × Option FsPath × List Log) :=
  if isDir fs src then
    match fail with
    | .noFail => .ok (copytreeFS fs src dst, some dst, [])
    | .shutilErr => .ok (fs, some src, [.debug])
    | .ioErr => .error .ioError
  else if isFile fs src then
    match fail with
    | .noFail =>
      let target := if isDir fs dst then dst ++ [fileName src] else dst
      let c := (lookupFile fs src).getD (.bytes [])
      .ok (setFile fs target c, some target, [])
    | .shutilErr => .ok (fs, some src, [.debug])
    | .ioErr => .error .ioError
  else .ok (fs, none, [])

/-- Byte view of a file for re-archiving; the raw on-disk representation of a
nested archive is opaque and modelled as empty. -/
def fileBytes : FileData → List Nat
  | .bytes bs => bs
  | .archive _ => []

/-- The `os.walk` phase of `add_to_zip`: every file below `dirAdd` becomes
one zip entry whose name is its path relative to the parent of `dirAdd`
(the `os.path.join(dir_to_add, "..")` base), so the folder keeps its own name
as top-level prefix.  Directory placeholder entries (`zip_file.write` of the
directories themselves) carry no content and are elided; the traversal order
is filesystem dependent and modelled as stored order. -/
def walkEntries (fs : FS) (dirAdd : FsPath) : List (Str × List Nat) :=
  (fs.files.filter (fun q => dirAdd.isPrefixOf q.1)).map
    (fun q => (joinSlash (q.1.drop dirAdd.dropLast.length), fileBytes q.2))

/-- Fixed fresh component standing for a `tempfile.TemporaryDirectory` name. -/
def tmpComp : Str := "sertit_tmp".toList

/-- Entries contributed by one `dirs_to_add` element of `add_to_zip`
(lines 583-615): an element that is an existing file is first extracted into a
scratch directory (`dir_to_add = extract_file(dir_to_add, tmp.name)`) and the
extraction result is walked (when the extraction returns several directories,
`os.walk` receives a list and raises `TypeError`); any other element is walked
directly (walking a non-existing path yields nothing). -/
def entriesForInput (fs : FS) (d : FsPath) : Except PyErr (List (Str × List Nat)) :=
  if isFile fs d then
    match extract_file fs d [tmpComp] false with
    | .error e => .error e
    | .ok (fs1, _, .single p) => .ok (walkEntries fs1 p)
    | .ok (_, _, .multiple _) => .error .typeErrorMisc
  else .ok (walkEntries fs d)

/-- Processes the `dirs_to_add` list of `add_to_zip`, accumulating the new
zip entries; each iteration's scratch directory is cleaned up afterwards, so
the scratch writes do not appear in the resulting filesystem. -/
def addEntriesLoop (fs : FS) : List FsPath → List (Str × List Nat) →
    Except PyErr (List (Str × List Nat))
  | [], acc => .ok acc
  | d :: rest, acc =>
    match entriesForInput fs d with
    | .error e => .error e
    | .ok es => addEntriesLoop fs rest (acc ++ es)

/-- Python `sertit.files.add_to_zip` (lines 544-617), for local paths: if
`zip_path` is not an existing file, `FileNotFoundError` is raised before
anything is opened or written; otherwise the zip is opened in append mode
(`BadZipFile` when the file is not a readable zip) and every input folder's
entries are appended to its member list.  The filesystem is returned alongside
the outcome so that the error cases expose it unchanged. -/
def add_to_zip (fs : FS) (zip_path : FsPath) (dirs_to_add : List FsPath) :
    FS × Except PyErr FsPath :=
  if !(isFile fs zip_path) then (fs, .error .fileNotFoundError)
  else
    match lookupFile fs zip_path with
    | some (.archive (.zipData true ms)) =>
      (match addEntriesLoop fs dirs_to_add [] with
       | .error e => (fs, .error e)
       | .ok es =>
         (setFile fs zip_path (.archive (.zipData true (ms ++ es))), .ok zip_path))
    | _ => (fs, .error .badZipFile)

/-- Abstract syntax of the regular expressions passed to `re.compile`
(`re.compile(regex)` in `read_archived_file`). -/
inductive Rgx where
  | empty
  | eps
  | lit (c : Char)
  | anyc
  | alt (a b : Rgx)
  | cat (a b : Rgx)
  | star (a : Rgx)
deriving DecidableEq

/-- Whether the regex accepts the empty string. -/
def nullable : Rgx → Bool
  | .empty => false
  | .eps => true
  | .lit _ => false
  | .anyc => false
  | .alt a b => nullable a || nullable b
  | .cat a b => nullable a && nullable b
  | .star _ => true

/-- Brzozowski derivative of a regex by a character. -/
def rderiv : Rgx → Char → Rgx
  | .empty, _ => .empty
  | .eps, _ => .empty
  | .lit c, d => if c == d then .eps else .empty
  | .anyc, _ => .eps
  | .alt a b, d => .alt (rderiv a d) (rderiv b d)
  | .cat a b, d =>
    if nullable a then .alt ((rderiv a d).cat b) (rderiv b d)
    else (rderiv a d).cat b
  | .star a, d => (rderiv a d).cat (.star a)

/-- Python `re.match` truthiness: the regex matches at position 0, i.e. it
accepts some prefix of the string (anchored at the start, unlike
`re.search`). -/
def reMatch : Rgx → Str → Bool
  | r, [] => nullable r
  | r, c :: s => nullable r || reMatch (rderiv r c) s

/-- Python `re.search` truthiness: the regex matches at some position. -/
def reSearch : Rgx → Str → Bool
  | r, [] => reMatch r []
  | r, s@(_ :: t) => reMatch r s || reSearch r t

/-- Content lookup in a zip by member name, CPython `ZipFile.read`: the
`NameToInfo` map is built in listing order with later entries overwriting
earlier ones, so a duplicated name resolves to the last entry bearing it. -/
def zipReadByName (ms : List (Str × List Nat)) (nm : Str) : Option (List Nat) :=
  (ms.reverse.find? (fun m => m.1 == nm)).map (fun m => m.2)

/-- Content lookup in a tar: `[mb for mb in tar_mb if mb.name == band_name][0]`
takes the first member bearing the name. -/
def tarReadByName (ms : List (Str × List Nat)) (nm : Str) : Option (List Nat) :=
  (ms.find? (fun m => m.1 == nm)).map (fun m => m.2)

/-- Python `sertit.files.read_archived_file` (lines 398-444): compiles the
regex, dispatches on the suffix (`.tar` via `tarfile`, `.zip` via `zipfile`,
everything else a `TypeError`; the `.tar.gz` branch of the source is dead code
because `PurePath.suffix` never equals `".tar.gz"`), lists all member names,
keeps those where `regex.match` is truthy, takes the first (`[0]`), and reads
that name's content; the `IndexError` of an empty match list is caught and
re-raised as `FileNotFoundError`. -/
def read_archived_file (fs : FS) (archive_path : FsPath) (r : Rgx) :
    Except PyErr (List Nat) :=
  let fname := fileName archive_path
  if pySuffix fname == ".tar".toList then
    match lookupFile fs archive_path with
    | none => .error .fileNotFoundError
    | some (.archive (.tarData openOk bodyOk ms)) =>
      if openOk then
        if bodyOk then
          match (ms.map (fun m => m.1)).find? (fun nm => reMatch r nm) with
          | none => .error .fileNotFoundError
          | some nm =>
            match tarReadByName ms nm with
            | some c => .ok c
            | none => .error .fileNotFoundError
        else .error .readError
      else .error .readError
    | some _ => .error .readError
  else if pySuffix fname == ".zip".toList then
    match lookupFile fs archive_path with
    | none => .error .fileNotFoundError
    | some (.archive (.zipData good ms)) =>
      if good then
        match (ms.map (fun m => m.1)).find? (fun nm => reMatch r nm) with
        | none => .error .fileNotFoundError
        | some nm =>
          match zipReadByName ms nm with
          | some c => .ok c
          | none => .error .fileNotFoundError
      else .error .badZipFile
    | some _ => .error .badZipFile
  else .error .typeErrorUnsupported

/-- Decimal digit character for `n % 10`. -/
def digitChar (n : Nat) : Char := Char.ofNat (48 + n % 10)

/-- Numeric value of a digit character. -/
def dVal (c : Char) : Nat := c.toNat - 48

/-- A Python `datetime.date`. -/
structure PDate where
  y : Nat
  m : Nat
  d : Nat
deriving DecidableEq

/-- A Python `datetime.datetime` (naive, no timezone). -/
structure PDateTime where
  y : Nat
  m : Nat
  d : Nat
  hh : Nat
  mi : Nat
  ss : Nat
  us : Nat
deriving DecidableEq

/-- Gregorian leap year, as validated by `datetime.date`. -/
def isLeap (y : Nat) : Bool := y % 4 == 0 && (y % 100 != 0 || y % 400 == 0)

/-- Days in a month, as validated by `datetime.date`. -/
def daysInMonth (y m : Nat) : Nat :=
  if m == 2 then (if isLeap y then 29 else 28)
  else if m == 4 || m == 6 || m == 9 || m == 11 then 30
  else 31

/-- The ranges `datetime.date(y, m, d)` accepts. -/
def validDate (y m d : Nat) : Bool :=
  1 ≤ y && y ≤ 9999 && 1 ≤ m && m ≤ 12 && 1 ≤ d && d ≤ daysInMonth y m

/-- The ranges `datetime.time(hh, mi, ss, us)` accepts. -/
def validTime (hh mi ss us : Nat) : Bool :=
  hh < 24 && mi < 60 && ss < 60 && us < 1000000

/-- Validity of a full `datetime.datetime`. -/
def validDT (t : PDateTime) : Bool :=
  validDate t.y t.m t.d && validTime t.hh t.mi t.ss t.us

/-- `date.isoformat()`: `YYYY-MM-DD` with zero padding. -/
def isoDate (y m d : Nat) : Str :=
  [digitChar (y / 1000), digitChar (y / 100), digitChar (y / 10), digitChar y,
   '-', digitChar (m / 10), digitChar m, '-', digitChar (d / 10), digitChar d]

/-- `datetime.isoformat()`: date part, `T`, `HH:MM:SS`, and a 6-digit
`.ffffff` fraction exactly when the microsecond field is nonzero. -/
def isoDateTime (t : PDateTime) : Str :=
  isoDate t.y t.m t.d ++ 'T' ::
    ([digitChar (t.hh / 10), digitChar t.hh, ':',
      digitChar (t.mi / 10), digitChar t.mi, ':',
      digitChar (t.ss / 10), digitChar t.ss] ++
     (if t.us == 0 then []
      else '.' :: [digitChar (t.us / 100000), digitChar (t.us / 10000),
                   digitChar (t.us / 1000), digitChar (t.us / 100),
                   digitChar (t.us / 10), digitChar t.us]))

/-- `datetime.date.fromisoformat` as on the Python versions this repository
targets (3.7-3.10, per `setup.py`): exactly ten characters `YYYY-MM-DD`, then
the `date` constructor's range checks. -/
def dateFromIso (s : Str) : Option PDate :=
  match s with
  | [c1, c2, c3, c4, d1, c5, c6, d2, c7, c8] =>
    if d1 == '-' && d2 == '-' &&
       c1.isDigit && c2.isDigit && c3.isDigit && c4.isDigit &&
       c5.isDigit && c6.isDigit && c7.isDigit && c8.isDigit then
      let y := dVal c1 * 1000 + dVal c2 * 100 + dVal c3 * 10 + dVal c4
      let m := dVal c5 * 10 + dVal c6
      let d := dVal c7 * 10 + dVal c8
      if validDate y m d then some ⟨y, m, d⟩ else none
    else none
  | _ => none

/-- Time-of-day part of `datetime.fromisoformat` (`_parse_isoformat_time`
without timezone offsets, which the encoder never emits for the naive
datetimes modelled here): `HH`, `HH:MM`, `HH:MM:SS`, or `HH:MM:SS` with a
fraction of exactly three or six digits, then the `time` range checks. -/
def parseHH (c1 c2 : Char) : Option Nat :=
  if c1.isDigit && c2.isDigit then some (dVal c1 * 10 + dVal c2) else none

/-- Parses the fraction digits (three or six of them) into microseconds. -/
def parseFrac : Str → Option Nat
  | [f1, f2, f3] =>
    if f1.isDigit && f2.isDigit && f3.isDigit then
      some ((dVal f1 * 100 + dVal f2 * 10 + dVal f3) * 1000)
    else none
  | [f1, f2, f3, f4, f5, f6] =>
    if f1.isDigit && f2.isDigit && f3.isDigit && f4.isDigit && f5.isDigit
        && f6.isDigit then
      some (dVal f1 * 100000 + dVal f2 * 10000 + dVal f3 * 1000 +
            dVal f4 * 100 + dVal f5 * 10 + dVal f6)
    else none
  | _ => none

/-- Parses the `tstr` part of an isoformat datetime string. -/
def parseTime (s : Str) : Option (Nat × Nat × Nat × Nat) :=
  match s with
  | [c1, c2] =>
    match parseHH c1 c2 with
    | some hh => if validTime hh 0 0 0 then some (hh, 0, 0, 0) else none
    | none => none
  | [c1, c2, ':', c3, c4] =>
    match parseHH c1 c2, parseHH c3 c4 with
    | some hh, some mi => if validTime hh mi 0 0 then some (hh, mi, 0, 0) else none
    | _, _ => none
  | c1 :: c2 :: ':' :: c3 :: c4 :: ':' :: c5 :: c6 :: rest =>
    match parseHH c1 c2, parseHH c3 c4, parseHH c5 c6 with
    | some hh, some mi, some ss =>
      match rest with
      | [] => if validTime hh mi ss 0 then some (hh, mi, ss, 0) else none
      | '.' :: fr =>
        match parseFrac fr with
        | some us => if validTime hh mi ss us then some (hh, mi, ss, us) else none
        | none => none
      | _ => none
    | _, _, _ => none
  | _ => none

/-- `datetime.datetime.fromisoformat` as on Python 3.7-3.10: the first ten
characters must parse as a date, character ten (any character) is skipped,
and the remainder, when nonempty, must parse as a time; a string of length
ten or eleven yields midnight. -/
def datetimeFromIso (s : Str) : Option PDateTime :=
  match dateFromIso (s.take 10) with
  | none => none
  | some d =>
    let tstr := s.drop 11
    if s.length ≤ 10 || tstr.isEmpty then
      if s.length == 10 || s.length == 11 then some ⟨d.y, d.m, d.d, 0, 0, 0, 0⟩
      else none
    else
      match parseTime tstr with
      | some t => some ⟨d.y, d.m, d.d, t.1, t.2.1, t.2.2.1, t.2.2.2⟩
      | none => none

/-- Raw value carried by an `Enum` member (`obj.value`). -/
inductive ERaw where
  | ei (n : Int)
  | es (s : Str)
deriving DecidableEq

/-- The Python values appearing in the JSON dictionaries of the claims. -/
inductive PyVal where
  | pyStr (s : Str)
  | pyInt (n : Int)
  | pyDate (y m d : Nat)
  | pyDateTime (t : PDateTime)
  | pyEnum (v : ERaw)
  | npInt64 (n : Int)
  | npInt32 (n : Int)
  | pyPathV (s : Str)
  | pySetRepr (s : Str)
deriving DecidableEq

/-- JSON scalar values produced for those Python values. -/
inductive JVal where
  | jstr (s : Str)
  | jint (n : Int)
deriving DecidableEq

/-- Value-level encoding performed by `json.dump(..., cls=CustomEncoder)`:
native `str`/`int` values are serialized directly by the base encoder, every
other type goes through `CustomEncoder.default` (lines 865-880): dates and
datetimes to their isoformat, `np.int64`/`np.int32` through `int()`, enums to
their raw value (which is then serialized natively), sets and paths through
`str()` (the set's `str()` representation is hash-order dependent and carried
as an opaque string). -/
def CustomEncoder_default : PyVal → JVal
  | .pyStr s => .jstr s
  | .pyInt n => .jint n
  | .pyDate y m d => .jstr (isoDate y m d)
  | .pyDateTime t => .jstr (isoDateTime t)
  | .npInt64 n => .jint n
  | .npInt32 n => .jint n
  | .pyEnum (.ei n) => .jint n
  | .pyEnum (.es s) => .jstr s
  | .pyPathV s => .jstr s
  | .pySetRepr s => .jstr s

/-- Per-value behaviour of `CustomDecoder.object_hook` (lines 834-857): a
string value is first tried as `date.fromisoformat`, on `ValueError` as
`datetime.fromisoformat`, and on a second `ValueError` kept as the raw
string; every non-string value is kept unchanged. -/
def CustomDecoder_hookVal : JVal → PyVal
  | .jint n => .pyInt n
  | .jstr s =>
    match dateFromIso s with
    | some d => .pyDate d.y d.m d.d
    | none =>
      match datetimeFromIso s with
      | some t => .pyDateTime t
      | none => .pyStr s

/-- The document written by `save_json` for a dictionary (key order kept;
serializing and reparsing the restricted scalar universe through JSON text is
the identity and is elided). -/
def save_json_doc (d : List (Str × PyVal)) : List (Str × JVal) :=
  d.map (fun kv => (kv.1, CustomEncoder_default kv.2))

/-- The dictionary produced by `read_json` (lines 883-909) from a stored
document: `json.load(file, cls=CustomDecoder)` applies `object_hook` to the
object's values. -/
def read_json_doc (doc : List (Str × JVal)) : List (Str × PyVal) :=
  doc.map (fun kv => (kv.1, CustomDecoder_hookVal kv.2))

/-- A positional argument of `save_json`: the dictionary or the output path. -/
inductive PyArg where
  | dictA (d : List (Str × PyVal))
  | pathA (p : FsPath)
deriving DecidableEq

/-- Top-level JSON document written by `json.dump`: an object for a dict
argument, a bare scalar otherwise (a path argument is encoded through
`CustomEncoder.default` as its string). -/
inductive JTop where
  | jobj (o : List (Str × JVal))
  | jprim (v : JVal)
deriving DecidableEq

/-- Python `sertit.files.save_json` (lines 912-940): when the second
positional argument is a dict, a deprecation warning is emitted and the two
arguments are swapped (legacy argument order); then the dictionary is dumped
with `CustomEncoder` to the output path.  Returns the written path, the
written document and whether the deprecation warning fired; `open()` on a
dict raises a `TypeError`. -/
def save_json (json_dict output_json : PyArg) :
    Except PyErr (FsPath × JTop × Bool) :=
  match output_json with
  | .dictA d2 =>
    match json_dict with
    | .pathA p => .ok (p, .jobj (save_json_doc d2), true)
    | .dictA _ => .error .typeErrorMisc
  | .pathA p =>
    match json_dict with
    | .dictA d => .ok (p, .jobj (save_json_doc d), false)
    | .pathA q => .ok (p, .jprim (.jstr (joinSlash q)), false)

-- Decidable equality on `Except`, for evaluating the model on concrete inputs.
deriving instance DecidableEq for Except

/-- Number of extraction targets `extract_file` computes for an archive;
used to state how many debug notes a fully-skipped re-extraction emits. -/
def numTargets (fs : FS) (file_path : FsPath) : Nat :=
  if isDir fs file_path then 0
  else
    match openArchive fs file_path with
    | .ok (_, extr_names) => extr_names.length
    | .error _ => 0

/-- A zip archive `z.zip` with one member `a/f.txt`, with the target
directory `out/a` already existing. -/
def fsOverwrite : FS :=
  { dirs := [[], ["out".toList], ["out".toList, "a".toList]],
    files := [(["z.zip".toList],
      .archive (.zipData true [("a/f.txt".toList, [1, 2])]))] }

/-- State after running `extract_file` on `fsOverwrite` with overwrite. -/
def fsOverwriteAfter : FS :=
  { dirs := [[], ["out".toList]], files := fsOverwrite.files }

/-- Members of the cross-contaminated zip: entry `a` selects `b/a` too. -/
def msCross : List (Str × List Nat) :=
  [("a/b".toList, [0]), ("b/a".toList, [1]), ("a/x".toList, [2]),
   ("b/y".toList, [3])]

/-- A zip archive holding `msCross`, with an empty output area. -/
def fsCross : FS :=
  { dirs := [[]], files := [(["z.zip".toList], .archive (.zipData true msCross))] }

/-- State after extracting `fsCross`: the pass for entry `a` also wrote
`out/b/a` and created `out/b`, so the pass for entry `b` was skipped and
`out/b/y` was never extracted. -/
def fsCrossAfter : FS :=
  { dirs := [["out".toList, "b".toList], ["out".toList, "a".toList],
             ["out".toList], []],
    files := [(["out".toList, "a".toList, "x".toList], .bytes [2]),
              (["out".toList, "b".toList, "a".toList], .bytes [1]),
              (["out".toList, "a".toList, "b".toList], .bytes [0]),
              (["z.zip".toList], .archive (.zipData true msCross))] }

/-- A malformed zip: `zipfile.ZipFile` raises `BadZipFile` on it. -/
def fsBadZip : FS :=
  { dirs := [[]], files := [(["bad.zip".toList], .archive (.zipData false []))] }

/-- A tar archive that opens but whose body raises `ReadError` during
`extractall`. -/
def fsTarBody : FS :=
  { dirs := [[]],
    files := [(["t.tar".toList],
      .archive (.tarData true false [("f".toList, [0])]))] }

/-- A zip with a duplicated member name, contents `[0]` then `[1]`. -/
def msDup : List (Str × List Nat) := [("a".toList, [0]), ("a".toList, [1])]

/-- Archive file holding `msDup`. -/
def fsDup : FS :=
  { dirs := [[]], files := [(["z.zip".toList], .archive (.zipData true msDup))] }

/-- A well-formed gzipped tar whose name `a.b.tar.gz` ends in `.tar.gz` but
whose suffix list is `[.b, .tar, .gz]`. -/
def fsTgz : FS :=
  { dirs := [[]],
    files := [(["a.b.tar.gz".toList],
      .archive (.tarData true true [("f".toList, [0])]))] }

/-- A filesystem with a single source file, for the copy counterexample. -/
def fsCopySrc : FS :=
  { dirs := [[]], files := [(["src.txt".toList], .bytes [5])] }

/-- The empty filesystem (only the root). -/
def fsEmptyFS : FS := { dirs := [[]], files := [] }

/-- A tar archive `z.tar` with a single member, over an empty output area. -/
def fsTar3 : FS :=
  { dirs := [[]],
    files := [(["z.tar".toList], .archive (.tarData true true [("f".toList, [7])]))] }

/-- State after extracting `fsTar3` into `out`. -/
def fsTar3After : FS :=
  { dirs := [["out".toList, "z".toList], ["out".toList], []],
    files := [(["out".toList, "z".toList, "f".toList], .bytes [7]),
              (["z.tar".toList], .archive (.tarData true true [("f".toList, [7])]))] }

/-- Members of a well-separated zip: two top-level entries, no
cross-containment. -/
def msNice : List (Str × List Nat) := [("a/x".toList, [0]), ("b/y".toList, [1])]

/-- Archive file holding `msNice`, over an empty output area. -/
def fsNice : FS :=
  { dirs := [[]], files := [(["z.zip".toList], .archive (.zipData true msNice))] }

/-- A tar archive for the archived-content reader, with two members. -/
def fsTarRead : FS :=
  { dirs := [[]],
    files := [(["z.tar".toList],
      .archive (.tarData true true [("m1".toList, [1]), ("m2".toList, [2])]))] }

/-- Relation between the filesystem before and after a write-only phase of
the extraction loop (no overwrite): file bindings outside the output
directory are untouched, directories and files are only added, and a path
that became a directory was not previously a file. -/
def StepOK (output : FsPath) (fsA fsB : FS) : Prop :=
  (∀ q, output.isPrefixOf q = false → lookupFile fsB q = lookupFile fsA q) ∧
  (∀ q, isDir fsA q = true → isDir fsB q = true) ∧
  (∀ q, isFile fsA q = true → isFile fsB q = true) ∧
  (∀ q, isDir fsB q = true → isDir fsA q = true ∨ isFile fsA q = false)


/-- Invariant of the zip extraction loop after the entries in `done` have
been processed, for an archive `ms` at large: under `output` exactly the
members whose top-level entry was processed are present (at their
archive-relative paths), file bindings outside `output` are untouched, every
directory is an original one, an ancestor of `output`, or a prefix of a
processed member's path, and every processed target exists. -/
def ZipInv (fs : FS) (output : FsPath) (ms : List (Str × List Nat))
    (done : List Str) (fsk : FS) : Prop :=
  (∀ p c', lookupFile fsk (output ++ p) = some c' ↔
     ∃ nm bs, (nm, bs) ∈ ms ∧ splitSlash nm = p ∧ topComp nm ∈ done ∧
       c' = FileData.bytes bs) ∧
  (∀ q, output.isPrefixOf q = false → lookupFile fsk q = lookupFile fs q) ∧
  (∀ q, isDir fsk q = true →
     isDir fs q = true ∨ q.isPrefixOf output = true ∨
     (∃ nm bs, (nm, bs) ∈ ms ∧ topComp nm ∈ done ∧
        q.isPrefixOf (output ++ splitSlash nm) = true)) ∧
  (∀ e2 ∈ done, isDir fsk (output ++ [e2]) = true)

/-- Mid-pass variant of `ZipInv` while the members `written` of the current
entry `e` have already been extracted and the target `output ++ [e]` has
been created. -/
def ZipPartInv (fs : FS) (output : FsPath) (ms : List (Str × List Nat))
    (done : List Str) (e : Str) (written : List (Str × List Nat))
    (g : FS) : Prop :=
  (∀ p c', lookupFile g (output ++ p) = some c' ↔
     (∃ nm bs, (nm, bs) ∈ ms ∧ splitSlash nm = p ∧ topComp nm ∈ done ∧
        c' = FileData.bytes bs) ∨
     (∃ nm bs, (nm, bs) ∈ written ∧ splitSlash nm = p ∧
        c' = FileData.bytes bs)) ∧
  (∀ q, output.isPrefixOf q = false → lookupFile g q = lookupFile fs q) ∧
  (∀ q, isDir g q = true →
     isDir fs q = true ∨ q.isPrefixOf output = true ∨
     (∃ nm bs, (nm, bs) ∈ ms ∧ topComp nm ∈ done ∧
        q.isPrefixOf (output ++ splitSlash nm) = true) ∨
     q = output ++ [e] ∨
     (∃ nm bs, (nm, bs) ∈ written ∧
        q.isPrefixOf (output ++ splitSlash nm) = true)) ∧
  (∀ e2 ∈ done, isDir g (output ++ [e2]) = true) ∧
  isDir g (output ++ [e]) = true


/-- Side conditions of the exact-extraction theorem: the output directory is
fresh (no file at, below, or above it; no directory strictly below it), every
member name is nested below a top-level entry, no entry name occurs as a
substring of another entry's member, member names are distinct, and no member
path is a prefix of another. -/
def ZipHyps (fs : FS) (output : FsPath) (ms : List (Str × List Nat)) : Prop :=
  (∀ en ∈ fs.files, output.isPrefixOf en.1 = false) ∧
  (∀ en ∈ fs.files, en.1.isPrefixOf output = false) ∧
  (∀ d ∈ fs.dirs, output.isPrefixOf d = false ∨ d = output) ∧
  (∀ m ∈ ms, 2 ≤ (splitSlash m.1).length) ∧
  (∀ m ∈ ms, ∀ m2 ∈ ms, topComp m2.1 ≠ topComp m.1 →
     substrB (topComp m2.1) m.1 = false) ∧
  (ms.map (fun m => m.1)).Nodup ∧
  (∀ m ∈ ms, ∀ m2 ∈ ms, m.1 ≠ m2.1 →
     (splitSlash m.1).isPrefixOf (splitSlash m2.1) = false)


/-! ## Theorems -/

/-- C1: with `overwrite = True` and an existing target directory, the loop
body of `extract_file` logs the overwrite note and removes the directory, but
extraction only runs in the `else` branch of the `is_dir()` test, so nothing
is re-extracted: the call succeeds, the target directory no longer exists and
contains no extracted member (here `a/f.txt`), contradicting both the claim
and the function's own documentation ("Overwrites if specified"). -/
theorem c1_overwrite_removes_without_reextract :
    extract_file fsOverwrite ["z.zip".toList] ["out".toList] true =
      .ok (fsOverwriteAfter, [.debug], .single ["out".toList, "a".toList]) ∧
    isDir fsOverwriteAfter ["out".toList, "a".toList] = false ∧
    lookupFile fsOverwriteAfter ["out".toList, "a".toList, "f.txt".toList] = none ∧
    (∀ p, isFile fsOverwriteAfter (["out".toList, "a".toList] ++ p) = false) := by
  refine ⟨by decide, by decide, by decide, ?_⟩
  intro p
  have : ∀ q ∈ fsOverwriteAfter.files, q.1 ≠ ["out".toList, "a".toList] ++ p := by
    intro q hq
    simp only [fsOverwriteAfter, fsOverwrite] at hq
    simp only [List.mem_singleton] at hq
    subst hq
    intro h
    exact absurd (congrArg List.length h) (by simp)
  have hf : List.find? (fun q => q.1 == ["out".toList, "a".toList] ++ p)
      fsOverwriteAfter.files = none := by
    rw [List.find?_eq_none]
    intro q hq
    simpa using this q hq
  unfold isFile lookupFile
  rw [hf]
  rfl

/-- C2 (counterexample): the zip `msCross` has unique top-level entries
`a` and `b`; member selection uses substring containment (`extr_name in
name`), so the pass for `a` also extracts `b/a` and creates `out/b`, the pass
for `b` is then skipped as already existing, and the member `b/y` — which
begins with the prefix `b` — is missing from the target directory `out/b`. -/
theorem c2_counterexample :
    extract_file fsCross ["z.zip".toList] ["out".toList] false =
      .ok (fsCrossAfter, [.info, .debug],
        .multiple [["out".toList, "a".toList], ["out".toList, "b".toList]]) ∧
    topComp "b/y".toList = "b".toList ∧
    lookupFile fsCrossAfter ["out".toList, "b".toList, "y".toList] = none := by
  decide

/-- C5 (counterexample): a malformed zip with a supported suffix makes
`zipfile.ZipFile` raise `BadZipFile` at open, outside the `try` block that
wraps extraction errors, so the low-level error propagates unwrapped instead
of the wrapping `TypeError("Impossible to extract ...")`. -/
theorem c5_counterexample :
    extract_file fsBadZip ["bad.zip".toList] ["out".toList] false =
      .error .badZipFile ∧
    PyErr.badZipFile ≠ PyErr.typeErrorCorrupt := by decide

/-- C6 (counterexample): on a zip whose listing holds the name `a` twice
(contents `[0]` then `[1]`), the first member matching the regex `a` is the
first entry with content `[0]`, but `ZipFile.read` resolves the name through
`NameToInfo`, which keeps the last entry — the call returns `[1]`, not the
first matching member's bytes. -/
theorem c6_counterexample :
    read_archived_file fsDup ["z.zip".toList] (.lit 'a') = .ok [1] ∧
    msDup.find? (fun m => reMatch (.lit 'a') m.1) = some ("a".toList, [0]) ∧
    ([1] : List Nat) ≠ [0] := by decide

/-- C7 (counterexample): the name `a.b.tar.gz` ends in `.tar.gz`, so under
the claim's reading its suffix is supported, yet `extract_file` raises the
unsupported-format `TypeError` because the source requires
`suffixes == [".tar", ".gz"]` and here the suffix list is
`[.b, .tar, .gz]`. -/
theorem c7_counterexample :
    specSupportedSuffix "a.b.tar.gz".toList = true ∧
    extract_file fsTgz ["a.b.tar.gz".toList] ["out".toList] false =
      .error .typeErrorUnsupported := by decide

/-- C8: when the given zip path is not an existing file, `add_to_zip` raises
`FileNotFoundError` before opening or writing anything, leaving the
filesystem unchanged — it only appends to existing zips, never creates one. -/
theorem c8_add_to_zip_not_found (fs : FS) (zip_path : FsPath)
    (dirs_to_add : List FsPath) (h : isFile fs zip_path = false) :
    add_to_zip fs zip_path dirs_to_add = (fs, .error .fileNotFoundError) := by
  unfold add_to_zip
  rw [h]
  rfl

/-- C8 (witness): a concrete filesystem without the zip file. -/
theorem c8_add_to_zip_not_found_witness :
    isFile fsEmptyFS ["z.zip".toList] = false ∧
    add_to_zip fsEmptyFS ["z.zip".toList] [["d".toList]] =
      (fsEmptyFS, .error .fileNotFoundError) :=
  ⟨by decide, c8_add_to_zip_not_found fsEmptyFS ["z.zip".toList] [["d".toList]]
    (by decide)⟩

/-- C9 (counterexample): a failure of the underlying `shutil.copy2` that is
an `IOError` but not a `shutil.Error` (for instance the destination directory
not existing) is re-raised by `copy` as `IOError`, so copy failures do
propagate to the caller. -/
theorem c9_counterexample :
    copy fsCopySrc ["src.txt".toList] ["dst.txt".toList] .ioErr =
      .error .ioError := by decide

/-- C10: when the second positional argument of `save_json` is a dict, the
arguments are swapped after a deprecation warning, so the legacy call
`save_json(p, d)` writes exactly the same document to the same path as the
documented order `save_json(d, p)` (only the warning flag differs). -/
theorem c10_save_json_swapped_order (d : List (Str × PyVal)) (p : FsPath) :
    save_json (.pathA p) (.dictA d) = .ok (p, .jobj (save_json_doc d), true) ∧
    save_json (.dictA d) (.pathA p) = .ok (p, .jobj (save_json_doc d), false) :=
  ⟨rfl, rfl⟩

/-! ### Digit and isoformat round-trip lemmas -/

theorem dVal_digitChar (n : Nat) : dVal (digitChar n) = n % 10 := by
  have h : n % 10 < 10 := Nat.mod_lt _ (by norm_num)
  unfold dVal digitChar
  interval_cases h' : n % 10 <;> decide

theorem isDigit_digitChar (n : Nat) : (digitChar n).isDigit = true := by
  have h : n % 10 < 10 := Nat.mod_lt _ (by norm_num)
  unfold digitChar
  interval_cases h' : n % 10 <;> decide

theorem validDate_bounds (y m d : Nat) (h : validDate y m d = true) :
    1 ≤ y ∧ y ≤ 9999 ∧ 1 ≤ m ∧ m ≤ 12 ∧ 1 ≤ d ∧ d ≤ 31 := by
  simp only [validDate, Bool.and_eq_true, decide_eq_true_eq] at h
  obtain ⟨⟨⟨⟨⟨h1, h2⟩, h3⟩, h4⟩, h5⟩, h6⟩ := h
  refine ⟨h1, h2, h3, h4, h5, ?_⟩
  unfold daysInMonth at h6
  split at h6
  · split at h6 <;> omega
  · split at h6 <;> omega

theorem dateFromIso_isoDate (y m d : Nat) (h : validDate y m d = true) :
    dateFromIso (isoDate y m d) = some ⟨y, m, d⟩ := by
  obtain ⟨h1, h2, h3, h4, h5, h6⟩ := validDate_bounds y m d h
  unfold isoDate dateFromIso
  simp only [isDigit_digitChar, dVal_digitChar]
  norm_num
  have e1 : y / 1000 % 10 * 1000 + y / 100 % 10 * 100 + y / 10 % 10 * 10 + y % 10 = y := by
    omega
  have e2 : m / 10 % 10 * 10 + m % 10 = m := by omega
  have e3 : d / 10 % 10 * 10 + d % 10 = d := by omega
  rw [e1, e2, e3, h]
  exact ⟨rfl, rfl, rfl, rfl⟩

theorem dateFromIso_isoDateTime (t : PDateTime) :
    dateFromIso (isoDateTime t) = none := by
  unfold isoDateTime isoDate
  rfl

theorem validTime_bounds (hh mi ss us : Nat) (h : validTime hh mi ss us = true) :
    hh < 24 ∧ mi < 60 ∧ ss < 60 ∧ us < 1000000 := by
  simp only [validTime, Bool.and_eq_true, decide_eq_true_eq] at h
  exact ⟨h.1.1.1, h.1.1.2, h.1.2, h.2⟩

theorem parseHH_digit (n : Nat) (hn : n < 100) :
    parseHH (digitChar (n / 10)) (digitChar n) = some n := by
  unfold parseHH
  simp only [isDigit_digitChar, dVal_digitChar]
  norm_num
  omega

theorem parseFrac_digits (us : Nat) (h : us < 1000000) :
    parseFrac [digitChar (us / 100000), digitChar (us / 10000),
      digitChar (us / 1000), digitChar (us / 100), digitChar (us / 10),
      digitChar us] = some us := by
  unfold parseFrac
  simp only [isDigit_digitChar, dVal_digitChar]
  norm_num
  omega

theorem datetimeFromIso_isoDateTime (t : PDateTime) (h : validDT t = true) :
    datetimeFromIso (isoDateTime t) = some t := by
  obtain ⟨y, m, d, hh, mi, ss, us⟩ := t
  simp only [validDT, Bool.and_eq_true] at h
  obtain ⟨hdv, htv⟩ := h
  obtain ⟨hh24, mi60, ss60, usM⟩ := validTime_bounds _ _ _ _ htv
  cases hu : (us == 0) with
  | true =>
    have hus : us = 0 := by simpa using hu
    subst hus
    have e : isoDateTime ⟨y, m, d, hh, mi, ss, 0⟩ =
        isoDate y m d ++ 'T' ::
          [digitChar (hh / 10), digitChar hh, ':', digitChar (mi / 10),
           digitChar mi, ':', digitChar (ss / 10), digitChar ss] := by
      unfold isoDateTime
      norm_num
    rw [e]
    unfold datetimeFromIso
    have ht10 : (isoDate y m d ++ 'T' ::
        [digitChar (hh / 10), digitChar hh, ':', digitChar (mi / 10),
         digitChar mi, ':', digitChar (ss / 10), digitChar ss]).take 10 =
        isoDate y m d := by
      unfold isoDate
      rfl
    rw [ht10, dateFromIso_isoDate y m d hdv]
    have hdrop : (isoDate y m d ++ 'T' ::
        [digitChar (hh / 10), digitChar hh, ':', digitChar (mi / 10),
         digitChar mi, ':', digitChar (ss / 10), digitChar ss]).drop 11 =
        [digitChar (hh / 10), digitChar hh, ':', digitChar (mi / 10),
         digitChar mi, ':', digitChar (ss / 10), digitChar ss] := by
      unfold isoDate
      rfl
    have hlen : (isoDate y m d ++ 'T' ::
        [digitChar (hh / 10), digitChar hh, ':', digitChar (mi / 10),
         digitChar mi, ':', digitChar (ss / 10), digitChar ss]).length = 19 := by
      simp [isoDate]
    simp only [hdrop, hlen]
    norm_num
    have hpt : parseTime
        [digitChar (hh / 10), digitChar hh, ':', digitChar (mi / 10),
         digitChar mi, ':', digitChar (ss / 10), digitChar ss] =
        some (hh, mi, ss, 0) := by
      unfold parseTime
      simp only [parseHH_digit hh (by omega), parseHH_digit mi (by omega),
        parseHH_digit ss (by omega)]
      rw [htv]
      simp
    rw [hpt]
  | false =>
    have e : isoDateTime ⟨y, m, d, hh, mi, ss, us⟩ =
        isoDate y m d ++ 'T' ::
          ([digitChar (hh / 10), digitChar hh, ':', digitChar (mi / 10),
            digitChar mi, ':', digitChar (ss / 10), digitChar ss] ++
           '.' :: [digitChar (us / 100000), digitChar (us / 10000),
            digitChar (us / 1000), digitChar (us / 100), digitChar (us / 10),
            digitChar us]) := by
      unfold isoDateTime
      rw [hu]
      rfl
    rw [e]
    unfold datetimeFromIso
    have ht10 : (isoDate y m d ++ 'T' ::
        ([digitChar (hh / 10), digitChar hh, ':', digitChar (mi / 10),
          digitChar mi, ':', digitChar (ss / 10), digitChar ss] ++
         '.' :: [digitChar (us / 100000), digitChar (us / 10000),
          digitChar (us / 1000), digitChar (us / 100), digitChar (us / 10),
          digitChar us])).take 10 = isoDate y m d := by
      unfold isoDate
      rfl
    rw [ht10, dateFromIso_isoDate y m d hdv]
    have hdrop : (isoDate y m d ++ 'T' ::
        ([digitChar (hh / 10), digitChar hh, ':', digitChar (mi / 10),
          digitChar mi, ':', digitChar (ss / 10), digitChar ss] ++
         '.' :: [digitChar (us / 100000), digitChar (us / 10000),
          digitChar (us / 1000), digitChar (us / 100), digitChar (us / 10),
          digitChar us])).drop 11 =
        [digitChar (hh / 10), digitChar hh, ':', digitChar (mi / 10),
         digitChar mi, ':', digitChar (ss / 10), digitChar ss] ++
        '.' :: [digitChar (us / 100000), digitChar (us / 10000),
         digitChar (us / 1000), digitChar (us / 100), digitChar (us / 10),
         digitChar us] := by
      unfold isoDate
      rfl
    have hlen : (isoDate y m d ++ 'T' ::
        ([digitChar (hh / 10), digitChar hh, ':', digitChar (mi / 10),
          digitChar mi, ':', digitChar (ss / 10), digitChar ss] ++
         '.' :: [digitChar (us / 100000), digitChar (us / 10000),
          digitChar (us / 1000), digitChar (us / 100), digitChar (us / 10),
          digitChar us])).length = 26 := by
      simp [isoDate]
    simp only [hdrop, hlen]
    norm_num
    have hpt : parseTime
        [digitChar (hh / 10), digitChar hh, ':', digitChar (mi / 10),
         digitChar mi, ':', digitChar (ss / 10), digitChar ss, '.',
         digitChar (us / 100000), digitChar (us / 10000),
         digitChar (us / 1000), digitChar (us / 100), digitChar (us / 10),
         digitChar us] = some (hh, mi, ss, us) := by
      unfold parseTime
      simp only [parseHH_digit hh (by omega), parseHH_digit mi (by omega),
        parseHH_digit ss (by omega), parseFrac_digits us (by omega)]
      rw [htv]
      try simp
    simp only [hpt]

/-- C4: encoding a mapping holding a date, a datetime, an enum member and
wide integers (`np.int64`/`np.int32`) with `CustomEncoder` and decoding with
`CustomDecoder` returns the date and datetime fields equal to the originals
and the integer fields as plain `int`s; the enum field comes back as its raw
stored value (no enum type information survives — for a string-valued enum,
provided the string is not itself date- or datetime-shaped, per the decoder's
trial order); and decoding of string values attempts `date.fromisoformat`,
then `datetime.fromisoformat`, then falls back to the raw string. -/
theorem c4_json_roundtrip (k1 k2 k3 k4 k5 : Str) (y m d : Nat) (t : PDateTime)
    (ev : ERaw) (n64 n32 : Int)
    (hd : validDate y m d = true) (ht : validDT t = true)
    (hev : match ev with
           | .ei _ => True
           | .es s => dateFromIso s = none ∧ datetimeFromIso s = none) :
    read_json_doc (save_json_doc
      [(k1, .pyDate y m d), (k2, .pyDateTime t), (k3, .pyEnum ev),
       (k4, .npInt64 n64), (k5, .npInt32 n32)]) =
      [(k1, .pyDate y m d), (k2, .pyDateTime t),
       (k3, match ev with | .ei n => .pyInt n | .es s => .pyStr s),
       (k4, .pyInt n64), (k5, .pyInt n32)] ∧
    (∀ s dd, dateFromIso s = some dd →
      CustomDecoder_hookVal (.jstr s) = .pyDate dd.y dd.m dd.d) ∧
    (∀ s tt, dateFromIso s = none → datetimeFromIso s = some tt →
      CustomDecoder_hookVal (.jstr s) = .pyDateTime tt) ∧
    (∀ s, dateFromIso s = none → datetimeFromIso s = none →
      CustomDecoder_hookVal (.jstr s) = .pyStr s) := by
  refine ⟨?_, ?_, ?_, ?_⟩
  · simp only [save_json_doc, read_json_doc, List.map, CustomEncoder_default]
    cases ev with
    | ei n =>
      simp [CustomEncoder_default, CustomDecoder_hookVal,
        dateFromIso_isoDate y m d hd, dateFromIso_isoDateTime t,
        datetimeFromIso_isoDateTime t ht]
    | es s =>
      obtain ⟨hs1, hs2⟩ := hev
      simp [CustomEncoder_default, CustomDecoder_hookVal,
        dateFromIso_isoDate y m d hd, dateFromIso_isoDateTime t,
        datetimeFromIso_isoDateTime t ht, hs1, hs2]
  · intro s dd hs
    simp [CustomDecoder_hookVal, hs]
  · intro s tt hs1 hs2
    simp [CustomDecoder_hookVal, hs1, hs2]
  · intro s hs1 hs2
    simp [CustomDecoder_hookVal, hs1, hs2]

/-- C4 (witness): a concrete mapping with a date, a datetime with
microseconds, an integer-valued enum and wide integers round-trips as the
claim states. -/
theorem c4_json_roundtrip_witness :
    validDate 2024 5 6 = true ∧
    validDT ⟨2023, 12, 31, 23, 59, 58, 123456⟩ = true ∧
    read_json_doc (save_json_doc
      [("a".toList, .pyDate 2024 5 6),
       ("b".toList, .pyDateTime ⟨2023, 12, 31, 23, 59, 58, 123456⟩),
       ("c".toList, .pyEnum (.ei 42)),
       ("d".toList, .npInt64 9007199254740993),
       ("e".toList, .npInt32 (-7))]) =
      [("a".toList, .pyDate 2024 5 6),
       ("b".toList, .pyDateTime ⟨2023, 12, 31, 23, 59, 58, 123456⟩),
       ("c".toList, .pyInt 42),
       ("d".toList, .pyInt 9007199254740993),
       ("e".toList, .pyInt (-7))] :=
  ⟨by decide, by decide,
    (c4_json_roundtrip "a".toList "b".toList "c".toList "d".toList "e".toList
      2024 5 6 ⟨2023, 12, 31, 23, 59, 58, 123456⟩ (.ei 42) 9007199254740993
      (-7) (by decide) (by decide) trivial).1⟩

/-- C9 (amended): `remove` never raises — a non-existent path and an
`OSError` from the underlying `rmtree`/`unlink` are both debug-logged with
the filesystem unchanged; `copy` swallows `shutil.Error` with a debug log
(returning the source path), but any other I/O failure is re-raised as
`IOError`, so copy failures do propagate to the caller. -/
theorem c9_cleanup_error_policy :
    (∀ fs p b, isDir fs p = false → isFile fs p = false →
      remove fs p b = (fs, [.debug])) ∧
    (∀ fs p, remove fs p true = (fs, [.debug])) ∧
    (∀ fs src dst, (isDir fs src || isFile fs src) = true →
      copy fs src dst .shutilErr = .ok (fs, some src, [.debug])) ∧
    (∀ fs src dst, (isDir fs src || isFile fs src) = true →
      copy fs src dst .ioErr = .error .ioError) := by
  refine ⟨?_, ?_, ?_, ?_⟩
  · intro fs p b h1 h2
    simp [remove, h1, h2]
  · intro fs p
    cases hd : isDir fs p <;> cases hf : isFile fs p <;> simp [remove, hd, hf]
  · intro fs src dst h
    cases hd : isDir fs src <;> cases hf : isFile fs src <;>
      simp_all [copy]
  · intro fs src dst h
    cases hd : isDir fs src <;> cases hf : isFile fs src <;>
      simp_all [copy]

/-- C9 (witness): the amended policy evaluated on a concrete filesystem:
removing a missing path only debug-logs, and a `shutil.Error` during copy is
swallowed returning the source. -/
theorem c9_cleanup_error_policy_witness :
    remove fsCopySrc ["nope".toList] false = (fsCopySrc, [.debug]) ∧
    copy fsCopySrc ["src.txt".toList] ["dst.txt".toList] .shutilErr =
      .ok (fsCopySrc, some ["src.txt".toList], [.debug]) :=
  ⟨c9_cleanup_error_policy.1 fsCopySrc ["nope".toList] false (by decide)
      (by decide),
   c9_cleanup_error_policy.2.2.1 fsCopySrc ["src.txt".toList]
      ["dst.txt".toList] (by decide)⟩

/-- C5 (amended): only a `tarfile.ReadError` raised by `extractall` is
wrapped into the `TypeError("Impossible to extract ...")`; a malformed zip
raises `zipfile.BadZipFile` unwrapped when `ZipFile` opens it, and a tar that
fails at open raises `tarfile.ReadError` unwrapped, both outside the `try`
block. -/
theorem c5_corrupt_archive_errors :
    (∀ fs fp out ow ms, isDir fs fp = false →
      isZipSuffix (fileName fp) = true →
      lookupFile fs fp = some (.archive (.zipData false ms)) →
      extract_file fs fp out ow = .error .badZipFile) ∧
    (∀ fs fp out ow b ms, isDir fs fp = false →
      isZipSuffix (fileName fp) = false → isTarSuffix (fileName fp) = true →
      lookupFile fs fp = some (.archive (.tarData false b ms)) →
      extract_file fs fp out ow = .error .readError) ∧
    (∀ fs fp out ow ms, isDir fs fp = false →
      isZipSuffix (fileName fp) = false → isTarSuffix (fileName fp) = true →
      lookupFile fs fp = some (.archive (.tarData true false ms)) →
      isDir fs (out ++ [get_filename (fileName fp)]) = false →
      (pathPrefixes (out ++ [get_filename (fileName fp)])).any
        (fun q => isFile fs q) = false →
      extract_file fs fp out ow = .error .typeErrorCorrupt) := by
  refine ⟨?_, ?_, ?_⟩
  · intro fs fp out ow ms hdir hzip hlk
    simp [extract_file, openArchive, hdir, hzip, hlk]
  · intro fs fp out ow b ms hdir hzip htar hlk
    simp [extract_file, openArchive, hdir, hzip, htar, hlk]
  · intro fs fp out ow ms hdir hzip htar hlk hed hmk
    simp [extract_file, openArchive, hdir, hzip, htar, hlk, extractLoop, hed,
      mkdirs, hmk]

/-- C5 (witness): a malformed zip propagates `BadZipFile` unwrapped, and a
tar failing during `extractall` gets the wrapping `TypeError`. -/
theorem c5_corrupt_archive_errors_witness :
    extract_file fsBadZip ["bad.zip".toList] ["out".toList] false =
      .error .badZipFile ∧
    extract_file fsTarBody ["t.tar".toList] ["out".toList] false =
      .error .typeErrorCorrupt :=
  ⟨c5_corrupt_archive_errors.1 fsBadZip ["bad.zip".toList] ["out".toList]
      false [] (by decide) (by decide) (by decide),
   c5_corrupt_archive_errors.2.2 fsTarBody ["t.tar".toList] ["out".toList]
      false [("f".toList, [0])] (by decide) (by decide) (by decide) (by decide)
      (by decide) (by decide)⟩

/-- Filtering the name listing equals filtering the members: the first
matching name is the name of the first matching member. -/
theorem findName_eq_findMember (ms : List (Str × List Nat)) (r : Rgx) :
    (ms.map (fun m => m.1)).find? (fun nm => reMatch r nm) =
      (ms.find? (fun m => reMatch r m.1)).map (fun m => m.1) := by
  induction ms with
  | nil => rfl
  | cons m t ih => cases h : reMatch r m.1 <;> simp [List.find?_cons, h, ih]

/-- Looking the first matching name back up from the front of a tar listing
returns the first matching member itself. -/
theorem tarReadByName_find (ms : List (Str × List Nat)) (r : Rgx)
    (m : Str × List Nat)
    (hm : ms.find? (fun m2 => reMatch r m2.1) = some m) :
    tarReadByName ms m.1 = some m.2 := by
  induction ms with
  | nil => simp at hm
  | cons a t ih =>
    by_cases h : reMatch r a.1 = true
    · have ham : a = m := by simpa [List.find?_cons, h] using hm
      subst ham
      simp [tarReadByName, List.find?_cons]
    · have h' : reMatch r a.1 = false := by simpa using h
      have hm' : t.find? (fun m2 => reMatch r m2.1) = some m := by
        simpa [List.find?_cons, h'] using hm
      have hmm : reMatch r m.1 = true := by simpa using List.find?_some hm'
      have hne : (a.1 == m.1) = false := by
        by_cases he : a.1 = m.1
        · rw [he] at h'
          exact absurd hmm (by simp [h'])
        · simpa using he
      have hrec := ih hm'
      simpa [tarReadByName, List.find?_cons, hne] using hrec

/-- A member's name can always be resolved in the reversed listing. -/
theorem zipReadByName_mem (ms : List (Str × List Nat)) (m : Str × List Nat)
    (hm : m ∈ ms) : ∃ c, zipReadByName ms m.1 = some c := by
  have hsome : (ms.reverse.find? (fun m2 => m2.1 == m.1)).isSome := by
    rw [List.find?_isSome]
    exact ⟨m, by simpa using hm, by simp⟩
  rcases Option.isSome_iff_exists.mp hsome with ⟨m2, hm2⟩
  exact ⟨m2.2, by simp [zipReadByName, hm2]⟩

/-- C6 (amended): `read_archived_file` compiles the pattern and filters the
full member-name listing with `re.match` (anchored at position 0, as the
final two conjuncts exhibit against `re.search`), selecting the first
matching name in listing order; for tar the first member bearing that name —
the first matching member — is read, while for zip the name is read through
`ZipFile.read`, which resolves a duplicated name to the last entry bearing
it; `FileNotFoundError` is raised exactly when zero members match. -/
theorem c6_read_first_match (fs : FS) (p : FsPath) (r : Rgx)
    (ms : List (Str × List Nat)) :
    (pySuffix (fileName p) = ".tar".toList →
      lookupFile fs p = some (.archive (.tarData true true ms)) →
      (read_archived_file fs p r =
        (match ms.find? (fun m => reMatch r m.1) with
         | some m => .ok m.2
         | none => .error .fileNotFoundError) ∧
       (read_archived_file fs p r = .error .fileNotFoundError ↔
         ∀ m2 ∈ ms, reMatch r m2.1 = false))) ∧
    (pySuffix (fileName p) = ".zip".toList →
      lookupFile fs p = some (.archive (.zipData true ms)) →
      (read_archived_file fs p r =
        (match ms.find? (fun m => reMatch r m.1) with
         | some m =>
           (match zipReadByName ms m.1 with
            | some c => .ok c
            | none => .error .fileNotFoundError)
         | none => .error .fileNotFoundError) ∧
       (read_archived_file fs p r = .error .fileNotFoundError ↔
         ∀ m2 ∈ ms, reMatch r m2.1 = false))) ∧
    reMatch (.lit 'a') "ba".toList = false ∧
    reSearch (.lit 'a') "ba".toList = true := by
  refine ⟨?_, ?_, by decide, by decide⟩
  · intro h1 h2
    have hread : read_archived_file fs p r =
        (match (ms.map (fun m => m.1)).find? (fun nm => reMatch r nm) with
         | none => .error .fileNotFoundError
         | some nm =>
           (match tarReadByName ms nm with
            | some c => .ok c
            | none => .error .fileNotFoundError)) := by
      simp [read_archived_file, h1, h2]
    rw [findName_eq_findMember] at hread
    cases hf : ms.find? (fun m => reMatch r m.1) with
    | none =>
      rw [hf] at hread
      simp only [Option.map_none'] at hread
      refine ⟨by rw [hread], ?_⟩
      rw [hread]
      constructor
      · intro _ m2 hm2
        have := List.find?_eq_none.mp hf m2 hm2
        simpa using this
      · intro _
        rfl
    | some m =>
      rw [hf] at hread
      simp only [Option.map_some'] at hread
      rw [tarReadByName_find ms r m hf] at hread
      refine ⟨by rw [hread], ?_⟩
      rw [hread]
      constructor
      · intro habs
        exact absurd habs (by simp)
      · intro hall
        have h3 := List.find?_some hf
        have h4 := List.mem_of_find?_eq_some hf
        have := hall m h4
        simp only [this] at h3
        exact absurd h3 (by simp)
  · intro h1 h2
    have hread : read_archived_file fs p r =
        (match (ms.map (fun m => m.1)).find? (fun nm => reMatch r nm) with
         | none => .error .fileNotFoundError
         | some nm =>
           (match zipReadByName ms nm with
            | some c => .ok c
            | none => .error .fileNotFoundError)) := by
      simp [read_archived_file, h1, h2]
    rw [findName_eq_findMember] at hread
    cases hf : ms.find? (fun m => reMatch r m.1) with
    | none =>
      rw [hf] at hread
      simp only [Option.map_none'] at hread
      refine ⟨by rw [hread], ?_⟩
      rw [hread]
      constructor
      · intro _ m2 hm2
        have := List.find?_eq_none.mp hf m2 hm2
        simpa using this
      · intro _
        rfl
    | some m =>
      rw [hf] at hread
      simp only [Option.map_some'] at hread
      refine ⟨by rw [hread], ?_⟩
      rw [hread]
      rcases zipReadByName_mem ms m (List.mem_of_find?_eq_some hf) with ⟨c, hc⟩
      rw [hc]
      constructor
      · intro habs
        exact absurd habs (by simp)
      · intro hall
        have h3 := List.find?_some hf
        have h4 := List.mem_of_find?_eq_some hf
        have := hall m h4
        simp only [this] at h3
        exact absurd h3 (by simp)

/-- C6 (witness): on a concrete tar, the regex `m.` selects the first
matching member `m1` and its bytes are returned. -/
theorem c6_read_first_match_witness :
    read_archived_file fsTarRead ["z.tar".toList]
      (Rgx.cat (.lit 'm') .anyc) = .ok [1] :=
  (((c6_read_first_match fsTarRead ["z.tar".toList]
      (Rgx.cat (.lit 'm') .anyc)
      [("m1".toList, [1]), ("m2".toList, [2])]).1
    (by decide) (by decide)).1).trans (by decide)

/-- `os.makedirs` only fails with `OSError`. -/
theorem mkdirs_error (fs : FS) (p : FsPath) (e : PyErr)
    (h : mkdirs fs p = .error e) : e = .osError := by
  unfold mkdirs at h
  split at h
  · injection h with h1
    exact h1.symm
  · simp at h

/-- Extracting one member only fails with `OSError`. -/
theorem extractOne_error (fs : FS) (t : FsPath) (c : List Nat) (e : PyErr)
    (h : extractOne fs t c = .error e) : e = .osError := by
  unfold extractOne at h
  cases hm : mkdirs fs t.dropLast with
  | error e2 =>
    rw [hm] at h
    injection h with h1
    exact (h1 ▸ mkdirs_error fs t.dropLast e2 hm)
  | ok fs1 =>
    rw [hm] at h
    dsimp only at h
    split at h
    · injection h with h1
      exact h1.symm
    · simp at h

/-- Writing a member list only fails with `OSError`. -/
theorem writeMembers_error (base : FsPath) (ms : List (Str × List Nat)) :
    ∀ fs e, writeMembers base fs ms = .error e → e = .osError := by
  induction ms with
  | nil =>
    intro fs e h
    simp [writeMembers] at h
  | cons m rest ih =>
    intro fs e h
    unfold writeMembers at h
    cases ho : extractOne fs (base ++ splitSlash m.1) m.2 with
    | error e2 =>
      rw [ho] at h
      injection h with h1
      exact (h1 ▸ extractOne_error _ _ _ _ ho)
    | ok fs1 =>
      rw [ho] at h
      exact ih fs1 e h

/-- The per-target loop only fails with `OSError` or the wrapping
`TypeError` around a tar extraction error. -/
theorem extractLoop_error (arch : Arch) (output : FsPath) (ow : Bool) :
    ∀ dirs fs logs e, extractLoop arch output ow fs logs dirs = .error e →
      e = .osError ∨ e = .typeErrorCorrupt := by
  intro dirs
  induction dirs with
  | nil =>
    intro fs logs e h
    simp [extractLoop] at h
  | cons d rest ih =>
    intro fs logs e h
    unfold extractLoop at h
    split at h
    · split at h
      · exact ih _ _ _ h
      · exact ih _ _ _ h
    · cases arch with
      | zipA ms =>
        simp only at h
        cases hm : mkdirs fs d with
        | error e2 =>
          rw [hm] at h
          injection h with h1
          exact .inl (h1 ▸ mkdirs_error _ _ _ hm)
        | ok fs1 =>
          rw [hm] at h
          dsimp only at h
          cases hw : writeMembers output fs1
              (ms.filter (fun m => substrB (fileName d) m.1)) with
          | error e2 =>
            rw [hw] at h
            injection h with h1
            exact .inl (h1 ▸ writeMembers_error _ _ _ _ hw)
          | ok fs2 =>
            rw [hw] at h
            dsimp only at h
            exact ih _ _ _ h
      | tarA bodyOk ms =>
        simp only at h
        cases hm : mkdirs fs d with
        | error e2 =>
          rw [hm] at h
          injection h with h1
          exact .inl (h1 ▸ mkdirs_error _ _ _ hm)
        | ok fs1 =>
          rw [hm] at h
          dsimp only at h
          split at h
          · cases hw : writeMembers d fs1 ms with
            | error e2 =>
              rw [hw] at h
              injection h with h1
              exact .inl (h1 ▸ writeMembers_error _ _ _ _ hw)
            | ok fs2 =>
              rw [hw] at h
              dsimp only at h
              exact ih _ _ _ h
          · injection h with h1
            exact .inr h1.symm

/-- The suffix-dispatch `TypeError` is raised exactly for unsupported
suffixes. -/
theorem openArchive_unsup_iff (fs : FS) (fp : FsPath) :
    (openArchive fs fp = .error .typeErrorUnsupported ↔
      supportedSuffix (fileName fp) = false) := by
  unfold openArchive supportedSuffix
  cases hz : isZipSuffix (fileName fp) with
  | true =>
    simp only [hz, Bool.true_or, if_true]
    constructor
    · intro h
      exfalso
      cases hlk : lookupFile fs fp with
      | none =>
        rw [hlk] at h
        simp at h
      | some fd =>
        rw [hlk] at h
        cases fd with
        | bytes bs => simp at h
        | archive a =>
          cases a with
          | tarData o b ms => simp at h
          | zipData good ms =>
            cases good with
            | true => simp at h
            | false => simp at h
    · intro h
      simp at h
  | false =>
    cases ht : isTarSuffix (fileName fp) with
    | true =>
      simp only [hz, ht, Bool.false_or, if_true, Bool.false_eq_true, if_false]
      constructor
      · intro h
        exfalso
        cases hlk : lookupFile fs fp with
        | none =>
          rw [hlk] at h
          simp at h
        | some fd =>
          rw [hlk] at h
          cases fd with
          | bytes bs => simp at h
          | archive a =>
            cases a with
            | zipData good ms => simp at h
            | tarData o b ms =>
              cases o with
              | true => simp at h
              | false => simp at h
      · intro h
        simp at h
    | false =>
      simp [hz, ht]

/-- An error from `extract_file` on a non-directory input comes from the
open phase, or is an `OSError` or the wrapping `TypeError` from the loop. -/
theorem extract_file_error_src (fs : FS) (fp out : FsPath) (ow : Bool)
    (e : PyErr) (hdir : isDir fs fp = false)
    (h : extract_file fs fp out ow = .error e) :
    openArchive fs fp = .error e ∨ e = .osError ∨ e = .typeErrorCorrupt := by
  unfold extract_file at h
  rw [hdir] at h
  simp only [Bool.false_eq_true, if_false] at h
  cases ho : openArchive fs fp with
  | error e2 =>
    rw [ho] at h
    dsimp only at h
    injection h with h1
    subst h1
    exact .inl rfl
  | ok pr =>
    obtain ⟨arch, names⟩ := pr
    rw [ho] at h
    dsimp only at h
    cases hl : extractLoop arch out ow fs [] (names.map (fun e2 => out ++ [e2])) with
    | error e2 =>
      rw [hl] at h
      dsimp only at h
      injection h with h1
      subst h1
      exact .inr (extractLoop_error arch out ow _ _ _ _ hl)
    | ok pr2 =>
      obtain ⟨fs1, logs⟩ := pr2
      rw [hl] at h
      dsimp only at h
      split at h <;> exact Except.noConfusion h

/-- C7 (amended): a directory input is returned unchanged with no content
validation; a non-directory input raises the unsupported-format `TypeError`
exactly when the source's suffix test fails — the suffix equal to `.zip` or
`.tar`, or the suffix list exactly `[.tar, .gz]` (so a name such as
`a.b.tar.gz`, though it ends in `.tar.gz`, is rejected); for a supported
suffix that error is never raised. -/
theorem c7_directory_and_suffix_dispatch (fs : FS) (fp out : FsPath)
    (ow : Bool) :
    (isDir fs fp = true → extract_file fs fp out ow = .ok (fs, [], .single fp)) ∧
    (isDir fs fp = false →
      (extract_file fs fp out ow = .error .typeErrorUnsupported ↔
        supportedSuffix (fileName fp) = false)) := by
  constructor
  · intro h
    simp [extract_file, h]
  · intro hdir
    constructor
    · intro herr
      rcases extract_file_error_src fs fp out ow _ hdir herr with ho | hos | hoc
      · exact (openArchive_unsup_iff fs fp).mp ho
      · exact absurd hos (by decide)
      · exact absurd hoc (by decide)
    · intro hsup
      have ho : openArchive fs fp = .error .typeErrorUnsupported :=
        (openArchive_unsup_iff fs fp).mpr hsup
      unfold extract_file
      rw [hdir]
      simp only [Bool.false_eq_true, if_false]
      rw [ho]

/-- C7 (witness): a directory input is returned as-is, and the well-formed
tar named `a.b.tar.gz` is rejected as unsupported while a plain `.tar` name
is not. -/
theorem c7_directory_and_suffix_dispatch_witness :
    extract_file fsTgz [] ["out".toList] false = .ok (fsTgz, [], .single []) ∧
    extract_file fsTgz ["a.b.tar.gz".toList] ["out".toList] false =
      .error .typeErrorUnsupported :=
  ⟨(c7_directory_and_suffix_dispatch fsTgz [] ["out".toList] false).1
      (by decide),
   ((c7_directory_and_suffix_dispatch fsTgz ["a.b.tar.gz".toList]
      ["out".toList] false).2 (by decide)).mpr (by decide)⟩

theorem stepOK_refl (out : FsPath) (fs : FS) : StepOK out fs fs :=
  ⟨fun _ _ => rfl, fun _ h => h, fun _ h => h, fun _ h => .inl h⟩

theorem stepOK_trans (out : FsPath) (a b c : FS) (h1 : StepOK out a b)
    (h2 : StepOK out b c) : StepOK out a c := by
  obtain ⟨p1, d1, f1, n1⟩ := h1
  obtain ⟨p2, d2, f2, n2⟩ := h2
  refine ⟨fun q hq => (p2 q hq).trans (p1 q hq), fun q h => d2 q (d1 q h),
    fun q h => f2 q (f1 q h), fun q h => ?_⟩
  rcases n2 q h with h' | h'
  · exact n1 q h'
  · right
    cases hfa : isFile a q with
    | false => rfl
    | true => exact absurd (f1 q hfa) (by simp [h'])

theorem isPrefixOf_refl {α : Type} [BEq α] [LawfulBEq α] (l : List α) :
    l.isPrefixOf l = true :=
  List.isPrefixOf_iff_prefix.mpr (List.prefix_refl l)

theorem isPrefixOf_append {α : Type} [BEq α] [LawfulBEq α] (l x : List α) :
    l.isPrefixOf (l ++ x) = true :=
  List.isPrefixOf_iff_prefix.mpr (List.prefix_append l x)

theorem isPrefixOf_trans {α : Type} [BEq α] [LawfulBEq α] (a b c : List α)
    (h1 : a.isPrefixOf b = true)
    (h2 : b.isPrefixOf c = true) : a.isPrefixOf c = true :=
  List.isPrefixOf_iff_prefix.mpr
    ((List.isPrefixOf_iff_prefix.mp h1).trans (List.isPrefixOf_iff_prefix.mp h2))

theorem foldl_addDir_files (l : List FsPath) :
    ∀ fs : FS, (l.foldl addDir fs).files = fs.files := by
  induction l with
  | nil => intro fs; rfl
  | cons p t ih =>
    intro fs
    rw [List.foldl_cons, ih]
    unfold addDir
    split <;> rfl

theorem isDir_addDir_mono (fs : FS) (p q : FsPath) (h : isDir fs q = true) :
    isDir (addDir fs p) q = true := by
  unfold addDir
  split
  · exact h
  · unfold isDir at h ⊢
    simp at h ⊢
    exact .inr h

theorem foldl_addDir_mono (l : List FsPath) :
    ∀ fs q, isDir fs q = true → isDir (l.foldl addDir fs) q = true := by
  induction l with
  | nil => intro fs q h; exact h
  | cons p t ih =>
    intro fs q h
    rw [List.foldl_cons]
    exact ih _ _ (isDir_addDir_mono fs p q h)

theorem isDir_addDir_self (fs : FS) (p : FsPath) :
    isDir (addDir fs p) p = true := by
  unfold addDir
  split
  · assumption
  · simp [isDir]

theorem foldl_addDir_mem (l : List FsPath) :
    ∀ fs q, q ∈ l → isDir (l.foldl addDir fs) q = true := by
  induction l with
  | nil => intro fs q h; simp at h
  | cons p t ih =>
    intro fs q h
    rw [List.foldl_cons]
    rcases List.mem_cons.mp h with rfl | hq
    · exact foldl_addDir_mono t _ _ (isDir_addDir_self fs q)
    · exact ih _ _ hq

theorem foldl_addDir_new (l : List FsPath) :
    ∀ fs q, isDir (l.foldl addDir fs) q = true → isDir fs q = true ∨ q ∈ l := by
  induction l with
  | nil => intro fs q h; exact .inl h
  | cons p t ih =>
    intro fs q h
    rw [List.foldl_cons] at h
    rcases ih _ _ h with h' | h'
    · unfold addDir at h'
      split at h'
      · exact .inl h'
      · rw [isDir, List.contains_cons] at h'
        rcases Bool.or_eq_true_iff.mp h' with he | hc
        · right
          have hqp : q = p := by simpa using he
          simp [hqp]
        · exact .inl hc
    · exact .inr (List.mem_cons_of_mem p h')

theorem mkdirs_ok_files (fs : FS) (p : FsPath) (fs' : FS)
    (h : mkdirs fs p = .ok fs') : fs'.files = fs.files := by
  unfold mkdirs at h
  split at h
  · simp at h
  · injection h with h1
    rw [← h1]
    exact foldl_addDir_files _ fs

theorem mkdirs_ok_nofile (fs : FS) (p : FsPath) (fs' : FS)
    (h : mkdirs fs p = .ok fs') :
    ∀ q ∈ pathPrefixes p, isFile fs q = false := by
  unfold mkdirs at h
  split at h
  · simp at h
  · next hc =>
    intro q hq
    rw [List.any_eq_true] at hc
    push_neg at hc
    have := hc q hq
    simpa using this

theorem lookupFile_congr_files (fsA fsB : FS) (h : fsB.files = fsA.files)
    (q : FsPath) : lookupFile fsB q = lookupFile fsA q := by
  unfold lookupFile
  rw [h]

theorem mkdirs_stepOK (out fs p fs') (h : mkdirs fs p = .ok fs') :
    StepOK out fs fs' := by
  have hfiles := mkdirs_ok_files fs p fs' h
  have hlk : ∀ q, lookupFile fs' q = lookupFile fs q :=
    lookupFile_congr_files fs fs' hfiles
  have hfl : ∀ q, isFile fs' q = isFile fs q := by
    intro q
    unfold isFile
    rw [hlk]
  have hdirs : ∀ q, isDir fs' q = true → isDir fs q = true ∨ q ∈ pathPrefixes p := by
    intro q hq
    unfold mkdirs at h
    split at h
    · simp at h
    · injection h with h1
      rw [← h1] at hq
      exact foldl_addDir_new _ fs q hq
  refine ⟨fun q _ => hlk q, ?_, fun q hq => by rw [hfl]; exact hq, ?_⟩
  · intro q hq
    unfold mkdirs at h
    split at h
    · simp at h
    · injection h with h1
      rw [← h1]
      exact foldl_addDir_mono _ fs q hq
  · intro q hq
    rcases hdirs q hq with h' | h'
    · exact .inl h'
    · exact .inr (mkdirs_ok_nofile fs p fs' h q h')

theorem mkdirs_ok_self (fs : FS) (p : FsPath) (fs' : FS)
    (h : mkdirs fs p = .ok fs') (hp : p ≠ []) : isDir fs' p = true := by
  unfold mkdirs at h
  split at h
  · simp at h
  · injection h with h1
    rw [← h1]
    refine foldl_addDir_mem _ fs p ?_
    unfold pathPrefixes
    rw [List.mem_map]
    refine ⟨p.length - 1, ?_, ?_⟩
    · rw [List.mem_range]
      have : 0 < p.length := List.length_pos.mpr hp
      omega
    · have : p.length - 1 + 1 = p.length := by
        have : 0 < p.length := List.length_pos.mpr hp
        omega
      rw [this, List.take_length]

theorem find?_filter_keepNe (l : List (FsPath × FileData)) (p q : FsPath)
    (hq : q ≠ p) :
    (l.filter (fun e => !(e.1 == p))).find? (fun e => e.1 == q) =
      l.find? (fun e => e.1 == q) := by
  induction l with
  | nil => rfl
  | cons e t ih =>
    by_cases hep : e.1 = p
    · have h1 : (!(e.1 == p)) = false := by simp [hep]
      have h2 : (e.1 == q) = false := by
        simp only [beq_eq_false_iff_ne, ne_eq]
        rw [hep]
        exact fun hh => hq hh.symm
      rw [List.filter_cons_of_neg (by simp [h1]), List.find?_cons_of_neg _ (by simp [h2])]
      exact ih
    · rw [List.filter_cons_of_pos (by simp [hep])]
      by_cases heq : e.1 = q
      · rw [List.find?_cons_of_pos _ (by simp [heq]),
          List.find?_cons_of_pos _ (by simp [heq])]
      · rw [List.find?_cons_of_neg _ (by simp [heq]),
          List.find?_cons_of_neg _ (by simp [heq])]
        exact ih

theorem lookupFile_setFile_ne (fs : FS) (p : FsPath) (c : FileData)
    (q : FsPath) (hq : q ≠ p) :
    lookupFile (setFile fs p c) q = lookupFile fs q := by
  unfold lookupFile setFile
  simp only
  rw [List.find?_cons_of_neg _ (by simp; exact fun hh => hq hh.symm)]
  rw [find?_filter_keepNe fs.files p q hq]

theorem lookupFile_setFile_self (fs : FS) (p : FsPath) (c : FileData) :
    lookupFile (setFile fs p c) p = some c := by
  unfold lookupFile setFile
  simp only
  rw [List.find?_cons_of_pos _ (by simp)]
  rfl

theorem isFile_setFile_mono (fs : FS) (p : FsPath) (c : FileData)
    (q : FsPath) (h : isFile fs q = true) :
    isFile (setFile fs p c) q = true := by
  by_cases hqp : q = p
  · subst hqp
    unfold isFile
    rw [lookupFile_setFile_self]
    rfl
  · unfold isFile
    rw [lookupFile_setFile_ne fs p c q hqp]
    exact h

theorem extractOne_stepOK (out : FsPath) (fs : FS) (t : FsPath) (c : List Nat)
    (fs' : FS) (h : extractOne fs t c = .ok fs')
    (hpfx : out.isPrefixOf t = true) : StepOK out fs fs' := by
  unfold extractOne at h
  cases hm : mkdirs fs t.dropLast with
  | error e =>
    rw [hm] at h
    exact Except.noConfusion h
  | ok fs1 =>
    rw [hm] at h
    dsimp only at h
    split at h
    · exact Except.noConfusion h
    · next hnd =>
      injection h with h1
      subst h1
      have step1 := mkdirs_stepOK out fs t.dropLast fs1 hm
      refine stepOK_trans out fs fs1 _ step1 ⟨?_, ?_, ?_, ?_⟩
      · intro q hq
        have hqt : q ≠ t := by
          intro hh
          subst hh
          rw [hpfx] at hq
          simp at hq
        exact lookupFile_setFile_ne fs1 t (.bytes c) q hqt
      · intro q hq
        exact hq
      · intro q hq
        exact isFile_setFile_mono fs1 t (.bytes c) q hq
      · intro q hq
        exact .inl hq

theorem writeMembers_stepOK (out base : FsPath)
    (hb : out.isPrefixOf base = true) (ms : List (Str × List Nat)) :
    ∀ fs fs', writeMembers base fs ms = .ok fs' → StepOK out fs fs' := by
  induction ms with
  | nil =>
    intro fs fs' h
    injection h with h1
    subst h1
    exact stepOK_refl out fs
  | cons m rest ih =>
    intro fs fs' h
    unfold writeMembers at h
    cases ho : extractOne fs (base ++ splitSlash m.1) m.2 with
    | error e =>
      rw [ho] at h
      exact Except.noConfusion h
    | ok fs1 =>
      rw [ho] at h
      have hpfx : out.isPrefixOf (base ++ splitSlash m.1) = true :=
        isPrefixOf_trans out base _ hb (isPrefixOf_append base _)
      exact stepOK_trans out fs fs1 fs'
        (extractOne_stepOK out fs _ m.2 fs1 ho hpfx) (ih fs1 fs' h)

theorem extractLoop_false_ok (arch : Arch) (output : FsPath) :
    ∀ dirs (fs : FS) (logs : List Log) (fs₁ : FS) (logs₁ : List Log),
      (∀ d ∈ dirs, output.isPrefixOf d = true ∧ d ≠ []) →
      extractLoop arch output false fs logs dirs = .ok (fs₁, logs₁) →
      StepOK output fs fs₁ ∧ (∀ d ∈ dirs, isDir fs₁ d = true) := by
  intro dirs
  induction dirs with
  | nil =>
    intro fs logs fs₁ logs₁ _ h
    unfold extractLoop at h
    injection h with h1
    have h2 : fs = fs₁ := congrArg Prod.fst h1
    subst h2
    exact ⟨stepOK_refl output fs, by simp⟩
  | cons d rest ih =>
    intro fs logs fs₁ logs₁ hdirs h
    have hd0 := hdirs d (List.mem_cons_self d rest)
    have hrest : ∀ d2 ∈ rest, output.isPrefixOf d2 = true ∧ d2 ≠ [] :=
      fun d2 hd2 => hdirs d2 (List.mem_cons_of_mem d hd2)
    unfold extractLoop at h
    split at h
    · next hskip =>
      dsimp only at h
      obtain ⟨hstep, hall⟩ := ih _ _ _ _ hrest h
      refine ⟨hstep, ?_⟩
      intro d2 hd2
      rcases List.mem_cons.mp hd2 with rfl | hd2'
      · exact hstep.2.1 d2 hskip
      · exact hall d2 hd2'
    · next hnd =>
      cases arch with
      | zipA ms =>
        dsimp only at h
        cases hm : mkdirs fs d with
        | error e =>
          rw [hm] at h
          exact Except.noConfusion h
        | ok fs1 =>
          rw [hm] at h
          dsimp only at h
          cases hw : writeMembers output fs1
              (ms.filter (fun m => substrB (fileName d) m.1)) with
          | error e =>
            rw [hw] at h
            exact Except.noConfusion h
          | ok fs2 =>
            rw [hw] at h
            dsimp only at h
            obtain ⟨hstep, hall⟩ := ih _ _ _ _ hrest h
            have s1 := mkdirs_stepOK output fs d fs1 hm
            have s2 := writeMembers_stepOK output output (isPrefixOf_refl output)
              _ fs1 fs2 hw
            refine ⟨stepOK_trans output fs fs1 fs₁ s1
              (stepOK_trans output fs1 fs2 fs₁ s2 hstep), ?_⟩
            intro d2 hd2
            rcases List.mem_cons.mp hd2 with rfl | hd2'
            · exact hstep.2.1 d2 (s2.2.1 d2 (mkdirs_ok_self fs d2 fs1 hm hd0.2))
            · exact hall d2 hd2'
      | tarA bodyOk ms =>
        dsimp only at h
        cases hm : mkdirs fs d with
        | error e =>
          rw [hm] at h
          exact Except.noConfusion h
        | ok fs1 =>
          rw [hm] at h
          dsimp only at h
          split at h
          · cases hw : writeMembers d fs1 ms with
            | error e =>
              rw [hw] at h
              exact Except.noConfusion h
            | ok fs2 =>
              rw [hw] at h
              dsimp only at h
              obtain ⟨hstep, hall⟩ := ih _ _ _ _ hrest h
              have s1 := mkdirs_stepOK output fs d fs1 hm
              have s2 := writeMembers_stepOK output d hd0.1 ms fs1 fs2 hw
              refine ⟨stepOK_trans output fs fs1 fs₁ s1
                (stepOK_trans output fs1 fs2 fs₁ s2 hstep), ?_⟩
              intro d2 hd2
              rcases List.mem_cons.mp hd2 with rfl | hd2'
              · exact hstep.2.1 d2 (s2.2.1 d2 (mkdirs_ok_self fs d2 fs1 hm hd0.2))
              · exact hall d2 hd2'
          · exact Except.noConfusion h

theorem extractLoop_all_skip (arch : Arch) (output : FsPath) :
    ∀ dirs (fs : FS) (logs : List Log),
      (∀ d ∈ dirs, isDir fs d = true) →
      extractLoop arch output false fs logs dirs =
        .ok (fs, logs ++ List.replicate dirs.length .debug) := by
  intro dirs
  induction dirs with
  | nil =>
    intro fs logs _
    simp [extractLoop]
  | cons d rest ih =>
    intro fs logs hall
    unfold extractLoop
    rw [hall d (List.mem_cons_self d rest)]
    simp only [eq_self_iff_true, if_true, Bool.false_eq_true, if_false]
    have hrec := ih fs (logs ++ [Log.debug])
      (fun d2 hd2 => hall d2 (List.mem_cons_of_mem d hd2))
    rw [hrec]
    simp [List.replicate_succ]

theorem openArchive_isFile (fs : FS) (fp : FsPath) (x : Arch × List Str)
    (h : openArchive fs fp = .ok x) : isFile fs fp = true := by
  cases hlk : lookupFile fs fp with
  | some fd => simp [isFile, hlk]
  | none =>
    exfalso
    unfold openArchive at h
    rw [hlk] at h
    cases hz : isZipSuffix (fileName fp) <;>
      cases ht : isTarSuffix (fileName fp) <;> simp [hz, ht] at h

theorem openArchive_congr (fsA fsB : FS) (fp : FsPath)
    (h : lookupFile fsB fp = lookupFile fsA fp) :
    openArchive fsB fp = openArchive fsA fp := by
  unfold openArchive
  rw [h]

/-- C3: when a call to `extract_file` with `overwrite=False` succeeds and the
archive does not live inside the output directory, calling it again on the
resulting filesystem performs no writes — it returns the same filesystem, the
same result value, and emits exactly one debug note per extraction target. -/
theorem c3_extract_idempotent (fs fs₁ : FS) (fp out : FsPath)
    (logs₁ : List Log) (r₁ : ExtrRes)
    (hpfx : out.isPrefixOf fp = false)
    (h1 : extract_file fs fp out false = .ok (fs₁, logs₁, r₁)) :
    extract_file fs₁ fp out false =
      .ok (fs₁, List.replicate (numTargets fs fp) Log.debug, r₁) := by
  by_cases hdir : isDir fs fp = true
  · unfold extract_file at h1
    rw [hdir] at h1
    simp only [eq_self_iff_true, if_true] at h1
    injection h1 with h2
    have hfs : fs = fs₁ := congrArg Prod.fst h2
    have hr : ExtrRes.single fp = r₁ := congrArg (fun z => z.2.2) h2
    subst hfs
    unfold extract_file numTargets
    rw [hdir]
    simp [← hr]
  · rw [Bool.not_eq_true] at hdir
    unfold extract_file at h1
    rw [hdir] at h1
    simp only [Bool.false_eq_true, if_false] at h1
    cases ho : openArchive fs fp with
    | error e =>
      rw [ho] at h1
      exact Except.noConfusion h1
    | ok pr =>
      obtain ⟨arch, names⟩ := pr
      rw [ho] at h1
      dsimp only at h1
      cases hl : extractLoop arch out false fs []
          (names.map fun e => out ++ [e]) with
      | error e =>
        rw [hl] at h1
        exact Except.noConfusion h1
      | ok pr2 =>
        obtain ⟨fsx, logsx⟩ := pr2
        rw [hl] at h1
        dsimp only at h1
        have hmap : ∀ d ∈ (names.map fun e => out ++ [e]),
            out.isPrefixOf d = true ∧ d ≠ [] := by
          intro d hd
          rcases List.mem_map.mp hd with ⟨e, _, rfl⟩
          exact ⟨isPrefixOf_append out [e], by simp⟩
        obtain ⟨hstep, hdirsall⟩ :=
          extractLoop_false_ok arch out _ fs [] fsx logsx hmap hl
        have hfile : isFile fs fp = true := openArchive_isFile fs fp _ ho
        have hlk2 : lookupFile fsx fp = lookupFile fs fp := hstep.1 fp hpfx
        have hdir2 : isDir fsx fp = false := by
          cases hd2 : isDir fsx fp with
          | false => rfl
          | true =>
            rcases hstep.2.2.2 fp hd2 with h' | h'
            · rw [hdir] at h'
              exact absurd h' (by simp)
            · rw [hfile] at h'
              exact absurd h' (by simp)
        have ho2 : openArchive fsx fp = .ok (arch, names) :=
          (openArchive_congr fs fsx fp hlk2).trans ho
        have hnum : numTargets fs fp = names.length := by
          simp [numTargets, hdir, ho]
        have hskip := extractLoop_all_skip arch out
          (names.map fun e => out ++ [e]) fsx [] hdirsall
        -- identify the components of the first run's result
        have hfseq : fsx = fs₁ := by
          split at h1 <;>
            (injection h1 with h2; exact congrArg Prod.fst h2)
        subst hfseq
        unfold extract_file
        rw [hdir2]
        simp only [Bool.false_eq_true, if_false]
        rw [ho2]
        dsimp only
        rw [hskip]
        dsimp only
        rw [hnum]
        simp only [List.nil_append, List.length_map]
        split at h1 <;>
          (injection h1 with h2
           have hr := congrArg (fun z => (z.2.2 : ExtrRes)) h2
           dsimp only at hr
           rw [hr])

/-- C3 (witness): extracting a concrete tar once and then again: the second
call returns the same filesystem and result with a single debug note. -/
theorem c3_extract_idempotent_witness :
    List.isPrefixOf (["out".toList] : FsPath) ["z.tar".toList] = false ∧
    extract_file fsTar3 ["z.tar".toList] ["out".toList] false =
      .ok (fsTar3After, [.info], .single ["out".toList, "z".toList]) ∧
    extract_file fsTar3After ["z.tar".toList] ["out".toList] false =
      .ok (fsTar3After,
           List.replicate (numTargets fsTar3 ["z.tar".toList]) Log.debug,
           .single ["out".toList, "z".toList]) :=
  ⟨by decide, by decide,
   c3_extract_idempotent fsTar3 fsTar3After ["z.tar".toList] ["out".toList]
     [.info] (.single ["out".toList, "z".toList]) (by decide) (by decide)⟩

theorem splitOnC_ne_nil (sep : Char) (s : Str) : splitOnC sep s ≠ [] := by
  cases s with
  | nil => simp [splitOnC]
  | cons c t =>
    unfold splitOnC
    dsimp only
    split
    · simp
    · split <;> simp

theorem splitSlash_ne_nil (s : Str) : splitSlash s ≠ [] :=
  splitOnC_ne_nil '/' s

theorem splitSlash_cons (s : Str) :
    splitSlash s = topComp s :: (splitSlash s).tail := by
  unfold topComp
  cases h : splitSlash s with
  | nil => exact absurd h (splitSlash_ne_nil s)
  | cons a t => rfl

theorem joinSlash_splitSlash (s : Str) : joinSlash (splitSlash s) = s := by
  induction s with
  | nil => rfl
  | cons c t ih =>
    unfold splitSlash splitOnC
    by_cases hc : c = '/'
    · subst hc
      simp only [beq_self_eq_true, if_true]
      cases h : splitOnC '/' t with
      | nil => exact absurd h (splitOnC_ne_nil '/' t)
      | cons a r =>
        show joinSlash ([] :: a :: r) = '/' :: t
        unfold joinSlash
        simp only [List.nil_append]
        rw [← h]
        rw [show splitOnC '/' t = splitSlash t from rfl, ih]
    · have hcb : (c == '/') = false := by simpa using hc
      rw [hcb]
      cases h : splitOnC '/' t with
      | nil => exact absurd h (splitOnC_ne_nil '/' t)
      | cons a r =>
        cases r with
        | nil =>
          have hj := ih
          rw [show splitSlash t = splitOnC '/' t from rfl, h] at hj
          unfold joinSlash at hj
          simp only [Bool.false_eq_true, if_false]
          show c :: a = c :: t
          rw [hj]
        | cons b r2 =>
          have hj := ih
          rw [show splitSlash t = splitOnC '/' t from rfl, h] at hj
          unfold joinSlash at hj
          simp only [Bool.false_eq_true, if_false]
          show (c :: a) ++ '/' :: joinSlash (b :: r2) = c :: t
          rw [List.cons_append, hj]

theorem substrB_of_isPrefixOf (n h : Str) (hp : n.isPrefixOf h = true) :
    substrB n h = true := by
  cases h with
  | nil =>
    have : n = [] := by
      have := List.isPrefixOf_iff_prefix.mp hp
      simpa using List.prefix_nil.mp this
    simp [substrB, this]
  | cons c t => simp [substrB, hp]

theorem top_isPrefixOf (s : Str) (h2 : 2 ≤ (splitSlash s).length) :
    (topComp s).isPrefixOf s = true := by
  have hc := splitSlash_cons s
  have hj := joinSlash_splitSlash s
  rw [hc] at hj
  cases ht : (splitSlash s).tail with
  | nil =>
    rw [hc, ht] at h2
    simp at h2
  | cons a r =>
    rw [ht] at hj
    unfold joinSlash at hj
    have hpre := isPrefixOf_append (topComp s) ('/' :: joinSlash (a :: r))
    rwa [hj] at hpre

theorem fileName_append_single (l : FsPath) (e : Str) :
    fileName (l ++ [e]) = e := by
  unfold fileName
  rw [List.getLast?_concat]
  rfl

theorem mem_dedupAux (seen : List Str) (l : List Str) (x : Str) :
    x ∈ dedupAux seen l ↔ x ∈ l ∧ seen.contains x = false := by
  induction l generalizing seen with
  | nil => simp [dedupAux]
  | cons a t ih =>
    unfold dedupAux
    by_cases ha : seen.contains a = true
    · rw [if_pos ha, ih]
      constructor
      · rintro ⟨hx, hs⟩
        refine ⟨List.mem_cons_of_mem a hx, hs⟩
      · rintro ⟨hx, hs⟩
        rcases List.mem_cons.mp hx with rfl | hx'
        · rw [ha] at hs
          exact absurd hs (by simp)
        · exact ⟨hx', hs⟩
    · have ha' : seen.contains a = false := by simpa using ha
      rw [if_neg (by rw [ha']; simp)]
      constructor
      · intro hx
        rcases List.mem_cons.mp hx with rfl | hx'
        · exact ⟨List.mem_cons_self x t, ha'⟩
        · rcases (ih (a :: seen)).mp hx' with ⟨h1, h2⟩
          rw [List.contains_cons] at h2
          rcases Bool.or_eq_false_iff.mp h2 with ⟨_, hs⟩
          exact ⟨List.mem_cons_of_mem a h1, hs⟩
      · rintro ⟨hx, hs⟩
        rcases List.mem_cons.mp hx with rfl | hx'
        · exact List.mem_cons_self x _
        · by_cases hxa : x = a
          · subst hxa
            exact List.mem_cons_self x _
          · refine List.mem_cons_of_mem a ((ih (a :: seen)).mpr ⟨hx', ?_⟩)
            rw [List.contains_cons]
            simp only [hs, Bool.or_false, beq_eq_false_iff_ne, ne_eq]
            exact hxa

theorem mem_dedupFirst (l : List Str) (x : Str) :
    x ∈ dedupFirst l ↔ x ∈ l := by
  unfold dedupFirst
  rw [mem_dedupAux]
  simp

theorem nodup_dedupAux (seen : List Str) (l : List Str) :
    (dedupAux seen l).Nodup := by
  induction l generalizing seen with
  | nil => simp [dedupAux]
  | cons a t ih =>
    unfold dedupAux
    split
    · exact ih seen
    · refine List.nodup_cons.mpr ⟨?_, ih (a :: seen)⟩
      intro hmem
      rcases (mem_dedupAux (a :: seen) t a).mp hmem with ⟨_, hc⟩
      rw [List.contains_cons] at hc
      simp at hc

theorem nodup_dedupFirst (l : List Str) : (dedupFirst l).Nodup :=
  nodup_dedupAux [] l

theorem isPrefixOf_length_le {α : Type} [BEq α] [LawfulBEq α] (a b : List α)
    (h : a.isPrefixOf b = true) : a.length ≤ b.length :=
  (List.isPrefixOf_iff_prefix.mp h).length_le

theorem isPrefixOf_append_cancel (l x y : FsPath)
    (h : (l ++ x).isPrefixOf (l ++ y) = true) : x.isPrefixOf y = true :=
  List.isPrefixOf_iff_prefix.mpr
    ((List.prefix_append_right_inj l).mp (List.isPrefixOf_iff_prefix.mp h))

theorem isPrefixOf_head {α : Type} [BEq α] [LawfulBEq α] (a b : α)
    (x y : List α) (h : (a :: x).isPrefixOf (b :: y) = true) : a = b := by
  have := List.isPrefixOf_iff_prefix.mp h
  rcases this with ⟨t, ht⟩
  injection ht with h1 _

theorem mem_pathPrefixes (q p : FsPath) :
    q ∈ pathPrefixes p ↔ q.isPrefixOf p = true ∧ q ≠ [] := by
  unfold pathPrefixes
  rw [List.mem_map]
  constructor
  · rintro ⟨i, hi, rfl⟩
    rw [List.mem_range] at hi
    refine ⟨List.isPrefixOf_iff_prefix.mpr (List.take_prefix (i + 1) p), ?_⟩
    have hlen : (p.take (i + 1)).length = i + 1 := by
      rw [List.length_take]
      omega
    intro hnil
    rw [hnil] at hlen
    simp at hlen
  · rintro ⟨hp, hne⟩
    have hpre := List.isPrefixOf_iff_prefix.mp hp
    have hq : q = p.take q.length := List.prefix_iff_eq_take.mp hpre
    have hlen : q.length ≤ p.length := hpre.length_le
    have hpos : 0 < q.length := List.length_pos.mpr hne
    refine ⟨q.length - 1, ?_, ?_⟩
    · rw [List.mem_range]
      omega
    · rw [show q.length - 1 + 1 = q.length from by omega]
      exact hq.symm

theorem lookupFile_some_mem (fs : FS) (q : FsPath) (c : FileData)
    (h : lookupFile fs q = some c) : (q, c) ∈ fs.files := by
  unfold lookupFile at h
  cases hf : fs.files.find? (fun e => e.1 == q) with
  | none =>
    rw [hf] at h
    simp at h
  | some en =>
    rw [hf] at h
    have h1 : en.2 = c := by simpa using h
    have h2 : en.1 = q := by simpa using List.find?_some hf
    have h3 := List.mem_of_find?_eq_some hf
    rw [← h1, ← h2]
    exact h3

theorem splitSlash_inj (a b : Str) (h : splitSlash a = splitSlash b) :
    a = b := by
  rw [← joinSlash_splitSlash a, ← joinSlash_splitSlash b, h]

theorem prefix_append_cases (q l z : FsPath)
    (h : q.isPrefixOf (l ++ z) = true) :
    q.isPrefixOf l = true ∨ ∃ p', q = l ++ p' ∧ p'.isPrefixOf z = true := by
  have hpre := List.isPrefixOf_iff_prefix.mp h
  have hq : q = (l ++ z).take q.length := List.prefix_iff_eq_take.mp hpre
  by_cases hl : q.length ≤ l.length
  · left
    rw [List.isPrefixOf_iff_prefix]
    rw [List.take_append_eq_append_take] at hq
    rw [show q.length - l.length = 0 from by omega] at hq
    simp only [List.take_zero, List.append_nil] at hq
    rw [hq]
    exact List.take_prefix _ _
  · right
    rw [List.take_append_eq_append_take] at hq
    rw [List.take_of_length_le (by omega)] at hq
    exact ⟨z.take (q.length - l.length), hq,
      List.isPrefixOf_iff_prefix.mpr (List.take_prefix _ _)⟩

theorem head_of_prefix_cons (p' : FsPath) (e : Str) (tl : FsPath)
    (hne : p' ≠ []) (hp : p'.isPrefixOf (e :: tl) = true) :
    ∃ t2, p' = e :: t2 := by
  cases p' with
  | nil => exact absurd rfl hne
  | cons a t2 =>
    have := isPrefixOf_head a e t2 tl hp
    exact ⟨t2, by rw [this]⟩

theorem topComp_of_split (nm : Str) (p : List Str) (h : splitSlash nm = p) :
    topComp nm = p.headD [] := by
  unfold topComp
  rw [h]

theorem zipInv_init (fs : FS) (output : FsPath) (ms : List (Str × List Nat))
    (H : ZipHyps fs output ms) : ZipInv fs output ms [] fs := by
  obtain ⟨h4a, _, _, _, _, _, _⟩ := H
  refine ⟨?_, fun q _ => rfl, fun q hq => .inl hq, by simp⟩
  intro p c'
  constructor
  · intro hlk
    exfalso
    have hmem := lookupFile_some_mem fs (output ++ p) c' hlk
    have hfa := h4a _ hmem
    rw [isPrefixOf_append] at hfa
    simp at hfa
  · rintro ⟨nm, bs, _, _, hdone, _⟩
    simp at hdone

theorem zipWriteOne (fs : FS) (output : FsPath) (ms : List (Str × List Nat))
    (done : List Str) (e : Str) (written : List (Str × List Nat)) (g : FS)
    (H : ZipHyps fs output ms)
    (hInv : ZipPartInv fs output ms done e written g)
    (w : Str × List Nat) (hw_ms : w ∈ ms) (hw_top : topComp w.1 = e)
    (hnotdone : e ∉ done)
    (hw_fresh : ∀ m ∈ written, m.1 ≠ w.1)
    (hwr_ms : ∀ m ∈ written, m ∈ ms ∧ topComp m.1 = e) :
    ∃ g', extractOne g (output ++ splitSlash w.1) w.2 = .ok g' ∧
      ZipPartInv fs output ms done e (written ++ [w]) g' := by
  obtain ⟨h4a, h4b, h4c, h5, h6, h7, h8⟩ := H
  obtain ⟨iF, iP, iD, iT, iE⟩ := hInv
  have hw2 := h5 w hw_ms
  have hsplitw := splitSlash_cons w.1
  rw [hw_top] at hsplitw
  -- the split of the current member is nonempty with head `e`
  have hlen_split : 1 ≤ (splitSlash w.1).length := by
    have := splitSlash_ne_nil w.1
    cases hsw : splitSlash w.1 with
    | nil => exact absurd hsw this
    | cons a t => simp
  set t := output ++ splitSlash w.1 with ht
  -- no file sits at any prefix of the parent of the target
  have hnofile : ∀ q ∈ pathPrefixes t.dropLast, isFile g q = false := by
    intro q hq
    rcases (mem_pathPrefixes q t.dropLast).mp hq with ⟨hqpre, hqne⟩
    have hqt : q.isPrefixOf t = true :=
      isPrefixOf_trans q t.dropLast t hqpre
        (List.isPrefixOf_iff_prefix.mpr (List.dropLast_prefix t))
    have hqlen : q.length ≤ t.length - 1 := by
      have h1 := isPrefixOf_length_le q t.dropLast hqpre
      rw [List.length_dropLast] at h1
      exact h1
    rcases prefix_append_cases q output (splitSlash w.1) hqt with hqo | ⟨p', rfl, hp'⟩
    · -- q is at or above the output directory: no file there
      by_cases hoq : output.isPrefixOf q = true
      · have hqe : q = output := by
          have h1 := List.isPrefixOf_iff_prefix.mp hqo
          have h2 := List.isPrefixOf_iff_prefix.mp hoq
          exact h1.eq_of_length_le h2.length_le
        subst hqe
        cases hfl : isFile g q with
        | false => rfl
        | true =>
          exfalso
          unfold isFile at hfl
          cases hlk : lookupFile g q with
          | none => rw [hlk] at hfl; simp at hfl
          | some c =>
            have := (iF [] c).mp (by simpa using hlk)
            rcases this with ⟨nm, bs, _, hsp, _, _⟩ | ⟨nm, bs, _, hsp, _⟩ <;>
              exact absurd hsp (splitSlash_ne_nil nm)
      · have hoq' : output.isPrefixOf q = false := by
          cases hx : output.isPrefixOf q with
          | false => rfl
          | true => exact absurd hx hoq
        cases hfl : isFile g q with
        | false => rfl
        | true =>
          exfalso
          unfold isFile at hfl
          cases hlk : lookupFile g q with
          | none => rw [hlk] at hfl; simp at hfl
          | some c =>
            rw [iP q hoq'] at hlk
            have hmem := lookupFile_some_mem fs q c hlk
            have := h4b _ hmem
            rw [this] at hqo
            simp at hqo
    · -- q = output ++ p' strictly below output
      by_cases hp'nil : p' = []
      · subst hp'nil
        cases hfl : isFile g (output ++ []) with
        | false => rfl
        | true =>
          exfalso
          unfold isFile at hfl
          cases hlk : lookupFile g (output ++ []) with
          | none => rw [hlk] at hfl; simp at hfl
          | some c =>
            have := (iF [] c).mp hlk
            rcases this with ⟨nm, bs, _, hsp, _, _⟩ | ⟨nm, bs, _, hsp, _⟩ <;>
              exact absurd hsp (splitSlash_ne_nil nm)
      · cases hfl : isFile g (output ++ p') with
        | false => rfl
        | true =>
          exfalso
          unfold isFile at hfl
          cases hlk : lookupFile g (output ++ p') with
          | none => rw [hlk] at hfl; simp at hfl
          | some c =>
            have hp'len : p'.length < (splitSlash w.1).length := by
              have : (output ++ p').length ≤ t.length - 1 := hqlen
              rw [ht] at this
              simp only [List.length_append] at this
              omega
            rcases (iF p' c).mp hlk with
              ⟨nm, bs, hnm_ms, hsp, hdone, _⟩ | ⟨nm, bs, hnm_wr, hsp, _⟩
            · -- a processed entry's member cannot live under the fresh entry
              rcases head_of_prefix_cons p' e ((splitSlash w.1).tail) hp'nil
                (by rw [← hsplitw]; exact hp') with ⟨t2, rfl⟩
              have : topComp nm = e := by
                rw [topComp_of_split nm (e :: t2) hsp]
                rfl
              rw [this] at hdone
              exact hnotdone hdone
            · -- an already-written member's path cannot be a proper prefix
              rcases hwr_ms (nm, bs) hnm_wr with ⟨hnm_ms, _⟩
              by_cases hne : nm = w.1
              · rw [hne] at hsp
                rw [← hsp] at hp'len
                omega
              · have h8s := h8 (nm, bs) hnm_ms w hw_ms hne
                dsimp only at h8s
                rw [hsp] at h8s
                rw [h8s] at hp'
                simp at hp'
  -- makedirs of the parent therefore succeeds
  have hmk : mkdirs g t.dropLast =
      .ok ((pathPrefixes t.dropLast).foldl addDir g) := by
    unfold mkdirs
    rw [if_neg ?_]
    rw [List.any_eq_true]
    push_neg
    intro q hq
    rw [hnofile q hq]
    simp
  set g2 := (pathPrefixes t.dropLast).foldl addDir g with hg2
  have hg2files : g2.files = g.files := foldl_addDir_files _ g
  have hlent : t.length = output.length + (splitSlash w.1).length := by
    rw [ht, List.length_append]
  -- the target itself is not a directory
  have hnd : isDir g2 t = false := by
    cases hdt : isDir g2 t with
    | false => rfl
    | true =>
      exfalso
      rcases foldl_addDir_new _ g t hdt with hgt | hmem
      · rcases iD t hgt with hfs | hto | ⟨nm, bs, hms, hdone, hpre⟩ | hte | ⟨nm, bs, hwr, hpre⟩
        · have htmem : t ∈ fs.dirs := by simpa [isDir] using hfs
          rcases h4c t htmem with hc1 | hc2
          · rw [ht, isPrefixOf_append] at hc1
            simp at hc1
          · rw [hc2] at hlent
            omega
        · have := isPrefixOf_length_le t output hto
          omega
        · have hcan := isPrefixOf_append_cancel output _ _ (ht ▸ hpre)
          have hw_head := hsplitw
          have hnm_head := splitSlash_cons nm
          rw [hw_head, hnm_head] at hcan
          have hhead := isPrefixOf_head e (topComp nm) _ _ hcan
          rw [← hhead] at hdone
          exact hnotdone hdone
        · have hcan : splitSlash w.1 = [e] := by
            have := ht ▸ hte
            exact List.append_cancel_left this
          rw [hcan] at hw2
          simp at hw2
        · have hcan := isPrefixOf_append_cancel output _ _ (ht ▸ hpre)
          rcases hwr_ms (nm, bs) hwr with ⟨hnm_ms, _⟩
          have hne : w.1 ≠ nm := fun hh => hw_fresh (nm, bs) hwr hh.symm
          have h8s := h8 w hw_ms (nm, bs) hnm_ms hne
          dsimp only at h8s
          rw [h8s] at hcan
          simp at hcan
      · rcases (mem_pathPrefixes t t.dropLast).mp hmem with ⟨hpp, _⟩
        have := isPrefixOf_length_le t t.dropLast hpp
        rw [List.length_dropLast] at this
        omega
  refine ⟨setFile g2 t (.bytes w.2), ?_, ?_, ?_, ?_, ?_, ?_⟩
  · unfold extractOne
    rw [hmk]
    dsimp only
    rw [hnd]
    simp
  · -- file contents under the output directory
    intro p c'
    by_cases hps : p = splitSlash w.1
    · subst hps
      rw [show output ++ splitSlash w.1 = t from rfl]
      rw [lookupFile_setFile_self]
      constructor
      · intro hc
        have hc' : c' = FileData.bytes w.2 := by
          injection hc with hh
          exact hh.symm
        right
        refine ⟨w.1, w.2, ?_, rfl, hc'⟩
        rw [List.mem_append]
        right
        simp
      · rintro (⟨nm, bs, hms, hsp, hdone, _⟩ | ⟨nm, bs, hmem, hsp, hc⟩)
        · have := splitSlash_inj nm w.1 hsp
          rw [this, hw_top] at hdone
          exact absurd hdone hnotdone
        · rcases List.mem_append.mp hmem with hmw | hmw
          · have := splitSlash_inj nm w.1 hsp
            exact absurd this (hw_fresh (nm, bs) hmw)
          · have hww : (nm, bs) = w := by simpa using hmw
            have hbs : bs = w.2 := congrArg Prod.snd hww
            rw [hc, hbs]
    · have hneq : output ++ p ≠ t := by
        intro hh
        exact hps (List.append_cancel_left (ht ▸ hh))
      rw [show lookupFile (setFile g2 t (.bytes w.2)) (output ++ p) =
            lookupFile g2 (output ++ p) from
          lookupFile_setFile_ne g2 t (.bytes w.2) (output ++ p) hneq,
        lookupFile_congr_files g g2 hg2files (output ++ p)]
      rw [iF p c']
      constructor
      · rintro (hd | ⟨nm, bs, hmem, hsp, hc⟩)
        · exact .inl hd
        · exact .inr ⟨nm, bs, List.mem_append_left _ hmem, hsp, hc⟩
      · rintro (hd | ⟨nm, bs, hmem, hsp, hc⟩)
        · exact .inl hd
        · rcases List.mem_append.mp hmem with hmw | hmw
          · exact .inr ⟨nm, bs, hmw, hsp, hc⟩
          · exfalso
            have hww : (nm, bs) = w := by simpa using hmw
            have hnm : nm = w.1 := congrArg Prod.fst hww
            rw [hnm] at hsp
            exact hps hsp.symm
  · -- files outside the output directory untouched
    intro q hq
    have hneq : q ≠ t := by
      intro hh
      rw [hh, ht, isPrefixOf_append] at hq
      simp at hq
    rw [lookupFile_setFile_ne g2 t (.bytes w.2) q hneq,
      lookupFile_congr_files g g2 hg2files q]
    exact iP q hq
  · -- directory provenance
    intro q hq
    have hq2 : isDir g2 q = true := hq
    rcases foldl_addDir_new _ g q hq2 with hgq | hmem
    · rcases iD q hgq with hfs | hto | ⟨nm, bs, hms, hdone, hpre⟩ | hte | ⟨nm, bs, hwr, hpre⟩
      · exact .inl hfs
      · exact .inr (.inl hto)
      · exact .inr (.inr (.inl ⟨nm, bs, hms, hdone, hpre⟩))
      · exact .inr (.inr (.inr (.inl hte)))
      · exact .inr (.inr (.inr (.inr ⟨nm, bs, List.mem_append_left _ hwr, hpre⟩)))
    · rcases (mem_pathPrefixes q t.dropLast).mp hmem with ⟨hpp, _⟩
      refine .inr (.inr (.inr (.inr ⟨w.1, w.2, ?_, ?_⟩)))
      · rw [List.mem_append]
        right
        simp
      · exact isPrefixOf_trans q t.dropLast (output ++ splitSlash w.1) hpp
          (List.isPrefixOf_iff_prefix.mpr (List.dropLast_prefix t))
  · -- processed targets remain directories
    intro e2 he2
    exact foldl_addDir_mono _ g _ (iT e2 he2)
  · -- the current target remains a directory
    exact foldl_addDir_mono _ g _ iE

theorem zipWrites (fs : FS) (output : FsPath) (ms : List (Str × List Nat))
    (done : List Str) (e : Str) (H : ZipHyps fs output ms)
    (hnotdone : e ∉ done) :
    ∀ (ws : List (Str × List Nat)) (g : FS) (written : List (Str × List Nat)),
      ZipPartInv fs output ms done e written g →
      (∀ m ∈ ws, m ∈ ms ∧ topComp m.1 = e) →
      (∀ m ∈ written, m ∈ ms ∧ topComp m.1 = e) →
      (∀ m ∈ written, ∀ m2 ∈ ws, m.1 ≠ m2.1) →
      (ws.map (fun m => m.1)).Nodup →
      ∃ g', writeMembers output g ws = .ok g' ∧
        ZipPartInv fs output ms done e (written ++ ws) g' := by
  intro ws
  induction ws with
  | nil =>
    intro g written hInv _ _ _ _
    refine ⟨g, rfl, ?_⟩
    rw [List.append_nil]
    exact hInv
  | cons w rest ih =>
    intro g written hInv hws hwr hdisj hnd
    have hw := hws w (List.mem_cons_self w rest)
    rcases zipWriteOne fs output ms done e written g H hInv w hw.1 hw.2
        hnotdone (fun m hm => hdisj m hm w (List.mem_cons_self w rest))
        hwr with ⟨g1, hone, hInv1⟩
    have hrec := ih g1 (written ++ [w]) hInv1
      (fun m hm => hws m (List.mem_cons_of_mem w hm))
      (by
        intro m hm
        rcases List.mem_append.mp hm with hm' | hm'
        · exact hwr m hm'
        · have : m = w := by simpa using hm'
          rw [this]
          exact hw)
      (by
        intro m hm m2 hm2
        rcases List.mem_append.mp hm with hm' | hm'
        · exact hdisj m hm' m2 (List.mem_cons_of_mem w hm2)
        · have hmw : m = w := by simpa using hm'
          rw [hmw]
          rw [List.map_cons, List.nodup_cons] at hnd
          intro hh
          exact hnd.1 (hh ▸ List.mem_map_of_mem (fun m3 => m3.1) hm2))
      (by
        rw [List.map_cons, List.nodup_cons] at hnd
        exact hnd.2)
    rcases hrec with ⟨g', hwrite, hInvF⟩
    refine ⟨g', ?_, ?_⟩
    · unfold writeMembers
      rw [hone]
      exact hwrite
    · rw [show written ++ w :: rest = (written ++ [w]) ++ rest from by simp]
      exact hInvF

theorem isPrefixOf_singleton (p' : FsPath) (e : Str)
    (h : p'.isPrefixOf [e] = true) : p' = [] ∨ p' = [e] := by
  cases p' with
  | nil => exact .inl rfl
  | cons a tl =>
    rcases List.isPrefixOf_iff_prefix.mp h with ⟨s, hs⟩
    injection hs with h1 h2
    rcases List.append_eq_nil.mp h2 with ⟨htl, _⟩
    right
    rw [h1, htl]

theorem zipPass (fs : FS) (output : FsPath) (ms : List (Str × List Nat))
    (done : List Str) (e : Str) (fsk : FS)
    (H : ZipHyps fs output ms)
    (hInv : ZipInv fs output ms done fsk)
    (he_mem : ∃ m ∈ ms, topComp m.1 = e)
    (hnotdone : e ∉ done) :
    isDir fsk (output ++ [e]) = false ∧
    ∃ g1 g2, mkdirs fsk (output ++ [e]) = .ok g1 ∧
      writeMembers output g1
        (ms.filter (fun m => substrB (fileName (output ++ [e])) m.1)) = .ok g2 ∧
      ZipInv fs output ms (done ++ [e]) g2 := by
  obtain ⟨h4a, h4b, h4c, h5, h6, h7, h8⟩ := H
  obtain ⟨iF, iP, iD, iT⟩ := hInv
  rcases he_mem with ⟨wit, hwit_ms, hwit_top⟩
  -- a path under output that carries a file must be a processed member path
  have hnofileDone : ∀ q, q.isPrefixOf (output ++ [e]) = true →
      isFile fsk q = false := by
    intro q hq
    cases hfl : isFile fsk q with
    | false => rfl
    | true =>
      exfalso
      unfold isFile at hfl
      cases hlk : lookupFile fsk q with
      | none => rw [hlk] at hfl; simp at hfl
      | some c =>
        rcases prefix_append_cases q output [e] hq with hqo | ⟨p', rfl, hp'⟩
        · by_cases hoq : output.isPrefixOf q = true
          · have hqe : q = output := by
              have h1 := List.isPrefixOf_iff_prefix.mp hqo
              have h2 := List.isPrefixOf_iff_prefix.mp hoq
              exact h1.eq_of_length_le h2.length_le
            subst hqe
            rcases (iF [] c).mp (by simpa using hlk) with ⟨nm, bs, _, hsp, _, _⟩
            exact absurd hsp (splitSlash_ne_nil nm)
          · have hoq' : output.isPrefixOf q = false := by
              cases hx : output.isPrefixOf q with
              | false => rfl
              | true => exact absurd hx hoq
            rw [iP q hoq'] at hlk
            have hmem := lookupFile_some_mem fs q c hlk
            have hb := h4b _ hmem
            rw [hb] at hqo
            simp at hqo
        · rcases isPrefixOf_singleton p' e hp' with rfl | rfl
          · rcases (iF [] c).mp hlk with ⟨nm, bs, _, hsp, _, _⟩
            exact absurd hsp (splitSlash_ne_nil nm)
          · rcases (iF [e] c).mp hlk with ⟨nm, bs, hms, hsp, _, _⟩
            have h5n := h5 (nm, bs) hms
            dsimp only at h5n
            rw [hsp] at h5n
            simp at h5n
  -- the target directory does not exist yet
  have hndir : isDir fsk (output ++ [e]) = false := by
    cases hdt : isDir fsk (output ++ [e]) with
    | false => rfl
    | true =>
      exfalso
      rcases iD _ hdt with hfs | hto | ⟨nm, bs, hms, hdone, hpre⟩
      · have htmem : output ++ [e] ∈ fs.dirs := by simpa [isDir] using hfs
        rcases h4c _ htmem with hc1 | hc2
        · rw [isPrefixOf_append] at hc1
          simp at hc1
        · have := congrArg List.length hc2
          simp at this
      · have := isPrefixOf_length_le _ _ hto
        simp at this
      · have hcan := isPrefixOf_append_cancel output _ _ hpre
        have hnm_head := splitSlash_cons nm
        rw [hnm_head] at hcan
        have hhead := isPrefixOf_head e (topComp nm) _ _ hcan
        rw [← hhead] at hdone
        exact hnotdone hdone
  refine ⟨hndir, ?_⟩
  -- makedirs of the target succeeds
  have hmk : mkdirs fsk (output ++ [e]) =
      .ok ((pathPrefixes (output ++ [e])).foldl addDir fsk) := by
    unfold mkdirs
    rw [if_neg ?_]
    rw [List.any_eq_true]
    push_neg
    intro q hq
    rcases (mem_pathPrefixes q (output ++ [e])).mp hq with ⟨hqpre, _⟩
    rw [hnofileDone q hqpre]
    simp
  set g1 := (pathPrefixes (output ++ [e])).foldl addDir fsk with hg1
  have hg1files : g1.files = fsk.files := foldl_addDir_files _ fsk
  -- part-invariant holds after creating the target
  have hInv1 : ZipPartInv fs output ms done e [] g1 := by
    refine ⟨?_, ?_, ?_, ?_, ?_⟩
    · intro p c'
      rw [lookupFile_congr_files fsk g1 hg1files (output ++ p)]
      rw [iF p c']
      constructor
      · intro hd
        exact .inl hd
      · rintro (hd | ⟨nm, bs, hmem, _, _⟩)
        · exact hd
        · simp at hmem
    · intro q hq
      rw [lookupFile_congr_files fsk g1 hg1files q]
      exact iP q hq
    · intro q hq
      rcases foldl_addDir_new _ fsk q hq with hgq | hmem
      · rcases iD q hgq with hfs | hto | hdn
        · exact .inl hfs
        · exact .inr (.inl hto)
        · exact .inr (.inr (.inl hdn))
      · rcases (mem_pathPrefixes q (output ++ [e])).mp hmem with ⟨hqpre, hqne⟩
        rcases prefix_append_cases q output [e] hqpre with hqo | ⟨p', rfl, hp'⟩
        · exact .inr (.inl hqo)
        · rcases isPrefixOf_singleton p' e hp' with rfl | rfl
          · exact .inr (.inl (by rw [List.append_nil]; exact isPrefixOf_refl output))
          · exact .inr (.inr (.inr (.inl rfl)))
    · intro e2 he2
      exact foldl_addDir_mono _ fsk _ (iT e2 he2)
    · refine foldl_addDir_mem _ fsk _ ?_
      rw [mem_pathPrefixes]
      refine ⟨isPrefixOf_refl _, by simp⟩
  -- the substring selection picks exactly the members of this entry
  have hsel : ms.filter (fun m => substrB (fileName (output ++ [e])) m.1) =
      ms.filter (fun m => topComp m.1 == e) := by
    rw [fileName_append_single]
    refine List.filter_congr ?_
    intro m hm
    by_cases htop : topComp m.1 = e
    · have hpre := top_isPrefixOf m.1 (h5 m hm)
      rw [htop] at hpre
      rw [substrB_of_isPrefixOf e m.1 hpre]
      simp [htop]
    · have h6s := h6 m hm wit hwit_ms (by rw [hwit_top]; exact fun hh => htop hh.symm)
      rw [hwit_top] at h6s
      rw [h6s]
      simp
      exact fun hh => htop hh
  rw [hsel]
  -- write all members of this entry
  have hws : ∀ m ∈ ms.filter (fun m => topComp m.1 == e), m ∈ ms ∧ topComp m.1 = e := by
    intro m hm
    rcases List.mem_filter.mp hm with ⟨h1, h2⟩
    exact ⟨h1, by simpa using h2⟩
  have hnodupsel : ((ms.filter (fun m => topComp m.1 == e)).map
      (fun m => m.1)).Nodup := by
    refine List.Nodup.sublist ?_ h7
    exact List.Sublist.map _ (List.filter_sublist ms)
  rcases zipWrites fs output ms done e
      ⟨h4a, h4b, h4c, h5, h6, h7, h8⟩ hnotdone
      (ms.filter (fun m => topComp m.1 == e)) g1 [] hInv1 hws
      (by simp) (by simp) hnodupsel with ⟨g2, hwrite, hInv2⟩
  refine ⟨g1, g2, hmk, hwrite, ?_, ?_, ?_, ?_⟩
  · -- file contents: processed entries now include e
    intro p c'
    rw [(hInv2.1 p c')]
    simp only [List.nil_append]
    constructor
    · rintro (⟨nm, bs, hms, hsp, hdone, hc⟩ | ⟨nm, bs, hmem, hsp, hc⟩)
      · exact ⟨nm, bs, hms, hsp, List.mem_append_left _ hdone, hc⟩
      · rcases hws (nm, bs) hmem with ⟨hms, htop⟩
        refine ⟨nm, bs, hms, hsp, ?_, hc⟩
        rw [List.mem_append]
        right
        simp [htop]
    · rintro ⟨nm, bs, hms, hsp, hdone, hc⟩
      rcases List.mem_append.mp hdone with hd | hd
      · exact .inl ⟨nm, bs, hms, hsp, hd, hc⟩
      · have htop : topComp nm = e := by simpa using hd
        refine .inr ⟨nm, bs, ?_, hsp, hc⟩
        rw [List.mem_filter]
        exact ⟨hms, by simp [htop]⟩
  · exact hInv2.2.1
  · -- directory provenance with e processed
    intro q hq
    rcases hInv2.2.2.1 q hq with hfs | hto | ⟨nm, bs, hms, hdone, hpre⟩ | hte | ⟨nm, bs, hwr, hpre⟩
    · exact .inl hfs
    · exact .inr (.inl hto)
    · exact .inr (.inr ⟨nm, bs, hms, List.mem_append_left _ hdone, hpre⟩)
    · refine .inr (.inr ⟨wit.1, wit.2, by simpa using hwit_ms, ?_, ?_⟩)
      · rw [List.mem_append]
        right
        simp [hwit_top]
      · rw [hte]
        have hw_cons := splitSlash_cons wit.1
        rw [hwit_top] at hw_cons
        rw [hw_cons]
        have hap := isPrefixOf_append (output ++ [e]) (splitSlash wit.1).tail
        simp only [List.append_assoc, List.singleton_append] at hap
        exact hap
    · rcases hws (nm, bs) hwr with ⟨hms, htop⟩
      refine .inr (.inr ⟨nm, bs, hms, ?_, hpre⟩)
      rw [List.mem_append]
      right
      simp [htop]
  · -- all processed targets exist
    intro e2 he2
    rcases List.mem_append.mp he2 with hd | hd
    · exact hInv2.2.2.2.1 e2 hd
    · have : e2 = e := by simpa using hd
      rw [this]
      exact hInv2.2.2.2.2

theorem zipLoop (fs : FS) (output : FsPath) (ms : List (Str × List Nat))
    (ov : Bool) (H : ZipHyps fs output ms) :
    ∀ (todo done : List Str) (fsk : FS) (logs : List Log),
    ZipInv fs output ms done fsk →
    (∀ e ∈ todo, ∃ m ∈ ms, topComp m.1 = e) →
    (done ++ todo).Nodup →
    ∃ g logs2, extractLoop (.zipA ms) output ov fsk logs
        (todo.map (fun e => output ++ [e])) = .ok (g, logs ++ logs2) ∧
      ZipInv fs output ms (done ++ todo) g := by
  intro todo
  induction todo with
  | nil =>
    intro done fsk logs hInv _ _
    exact ⟨fsk, [], by simp [extractLoop], by simpa using hInv⟩
  | cons e rest ih =>
    intro done fsk logs hInv htodo hnd
    have hnotdone : e ∉ done := by
      rw [List.nodup_append] at hnd
      intro hc
      exact hnd.2.2 hc (by simp)
    rcases zipPass fs output ms done e fsk H hInv (htodo e (by simp)) hnotdone
      with ⟨hndir, g1, g2, hmk, hwr, hInv2⟩
    have hnd2 : ((done ++ [e]) ++ rest).Nodup := by
      rw [show (done ++ [e]) ++ rest = done ++ e :: rest from by simp]
      exact hnd
    rcases ih (done ++ [e]) g2 (logs ++ [Log.info]) hInv2
        (fun x hx => htodo x (by simp [hx])) hnd2
      with ⟨g, logs2, hrun, hInvF⟩
    refine ⟨g, [Log.info] ++ logs2, ?_, ?_⟩
    · show extractLoop (Arch.zipA ms) output ov fsk logs
        ((output ++ [e]) :: rest.map (fun x => output ++ [x])) = _
      unfold extractLoop
      rw [hndir]
      simp only [Bool.false_eq_true, if_false]
      rw [hmk]
      dsimp only
      rw [hwr]
      dsimp only
      rw [hrun]
      simp
    · rw [show done ++ e :: rest = (done ++ [e]) ++ rest from by simp]
      exact hInvF

/-- C2 (amended): a zip archive whose distinct top-level entry names never
occur as substrings of another entry's member names (and whose member paths
are nested, distinct and pairwise non-prefix), extracted into a fresh output
directory, yields exactly one target directory per distinct top-level entry
(`numTargets` counts them), the single/multiple result built from that entry
list, every target directory present, the files below `output` being exactly
the archive members at their archive-relative paths, and everything outside
`output` untouched.  Without the no-cross-substring proviso the selection
`extr_name in name` (files.py:241) extracts other entries' members early and
leaves a later target incomplete, as `c2_counterexample` shows. -/
theorem c2_zip_targets_exact (fs : FS) (file_path output : FsPath)
    (ms : List (Str × List Nat)) (ov : Bool)
    (hdir : isDir fs file_path = false)
    (hzip : isZipSuffix (fileName file_path) = true)
    (hlk : lookupFile fs file_path = some (.archive (.zipData true ms)))
    (H : ZipHyps fs output ms) :
    ∃ fs1 logs1, extract_file fs file_path output ov =
        .ok (fs1, logs1,
          match (dedupFirst (ms.map (fun m => topComp m.1))).map
              (fun e => output ++ [e]) with
          | [d] => ExtrRes.single d
          | ds => ExtrRes.multiple ds) ∧
      numTargets fs file_path =
        (dedupFirst (ms.map (fun m => topComp m.1))).length ∧
      (∀ e ∈ dedupFirst (ms.map (fun m => topComp m.1)),
         isDir fs1 (output ++ [e]) = true) ∧
      (∀ p c', lookupFile fs1 (output ++ p) = some c' ↔
         ∃ nm bs, (nm, bs) ∈ ms ∧ splitSlash nm = p ∧
           c' = FileData.bytes bs) ∧
      (∀ q, output.isPrefixOf q = false →
         lookupFile fs1 q = lookupFile fs q) := by
  have hopen : openArchive fs file_path =
      .ok (.zipA ms, dedupFirst (ms.map (fun m => topComp m.1))) := by
    simp only [openArchive, hzip, if_true, hlk]
  have hinit := zipInv_init fs output ms H
  have htodo : ∀ e ∈ dedupFirst (ms.map (fun m => topComp m.1)),
      ∃ m ∈ ms, topComp m.1 = e := by
    intro e he
    rw [mem_dedupFirst] at he
    rcases List.mem_map.mp he with ⟨m, hm, hme⟩
    exact ⟨m, hm, hme⟩
  rcases zipLoop fs output ms ov H
      (dedupFirst (ms.map (fun m => topComp m.1))) [] fs [] hinit htodo
      (by simpa using nodup_dedupFirst _) with ⟨g, logs2, hrun, hinv⟩
  rw [List.nil_append] at hinv
  refine ⟨g, [] ++ logs2, ?_, ?_, ?_, ?_, ?_⟩
  · unfold extract_file
    rw [hdir]
    simp only [Bool.false_eq_true, if_false]
    rw [hopen]
    dsimp only
    rw [hrun]
    dsimp only
    cases hml : (dedupFirst (ms.map (fun m => topComp m.1))).map
        (fun e => output ++ [e]) with
    | nil => rfl
    | cons d t =>
      cases t with
      | nil => rfl
      | cons d2 t2 => rfl
  · unfold numTargets
    rw [hdir]
    simp only [Bool.false_eq_true, if_false]
    rw [hopen]
  · intro e he
    exact hinv.2.2.2 e he
  · intro p c'
    rw [hinv.1 p c']
    constructor
    · rintro ⟨nm, bs, hms, hsp, _, hc⟩
      exact ⟨nm, bs, hms, hsp, hc⟩
    · rintro ⟨nm, bs, hms, hsp, hc⟩
      refine ⟨nm, bs, hms, hsp, ?_, hc⟩
      rw [mem_dedupFirst]
      exact List.mem_map.mpr ⟨(nm, bs), hms, rfl⟩
  · exact hinv.2.1

/-- Witness for `c2_zip_targets_exact` on the two-entry archive `msNice`
(`a/x`, `b/y`) in `fsNice`, extracted into the fresh directory `out`. -/
theorem c2_zip_targets_exact_witness :
    ∃ fs1 logs1, extract_file fsNice ["z.zip".toList] ["out".toList] false =
        .ok (fs1, logs1,
          match (dedupFirst (msNice.map (fun m => topComp m.1))).map
              (fun e => ["out".toList] ++ [e]) with
          | [d] => ExtrRes.single d
          | ds => ExtrRes.multiple ds) ∧
      numTargets fsNice ["z.zip".toList] =
        (dedupFirst (msNice.map (fun m => topComp m.1))).length ∧
      (∀ e ∈ dedupFirst (msNice.map (fun m => topComp m.1)),
         isDir fs1 (["out".toList] ++ [e]) = true) ∧
      (∀ p c', lookupFile fs1 (["out".toList] ++ p) = some c' ↔
         ∃ nm bs, (nm, bs) ∈ msNice ∧ splitSlash nm = p ∧
           c' = FileData.bytes bs) ∧
      (∀ q, ["out".toList].isPrefixOf q = false →
         lookupFile fs1 q = lookupFile fsNice q) :=
  c2_zip_targets_exact fsNice ["z.zip".toList] ["out".toList] msNice false
    (by decide) (by decide) (by decide) (by unfold ZipHyps; decide)
